import Mathlib

/-!
# Lisp_To_C_Converter: lexer and recursive-descent parser/emitter

A shallow embedding of `src/Lisp_To_C_Converter.cpp`.

* `std::string` is a `List Char`; `char` is `Char`.
* `vector<Token>` is a `List Token`; the `Parser` object is its two members, the
  immutable `tokens` and the cursor `current`, passed explicitly.
* The four `runtime_error`s are the constructors of `ParseError`.
* Loops and the recursion of the parser are bounded by a fuel argument; a result
  `none` means the fuel ran out, and is shown never to happen for the fuel that the
  entry points supply.
* The `cout` trace is not modelled: it does not influence any returned value.
-/

namespace LispToC

/-! ## Data model -/

/-- Token kinds, `Token::Type` in the source. -/
inductive TokenType where
  | FUNCTION
  | NUMBER
  | OPERATOR
  | LPAREN
  | RPAREN
  | INVALID
  deriving DecidableEq, Repr

/-- Token of the source: a kind `type` and its text `value`. -/
structure Token where
  type : TokenType
  value : List Char
  deriving DecidableEq, Repr

/-- The four `runtime_error`s thrown by the parser, named after their message:
"Invalid expression start.", "Expected function name.",
"Unexpected token inside arguments." and "Unexpected token at the end.". -/
inductive ParseError where
  | InvalidExpressionStart
  | ExpectedFunctionName
  | UnexpectedTokenInArguments
  | UnexpectedTrailingToken
  deriving DecidableEq, Repr

deriving instance DecidableEq for Except

/-! ## Character classes of `<cctype>` in the "C" locale -/

/-- The `isspace` of the C locale: space, `\t`, `\n`, `\v`, `\f`, `\r`. -/
def isspace (ch : Char) : Bool :=
  ch.toNat == 32 || (9 ≤ ch.toNat && ch.toNat ≤ 13)

/-- The `isdigit` of the C locale: `0` to `9`. -/
def isdigit (ch : Char) : Bool :=
  48 ≤ ch.toNat && ch.toNat ≤ 57

/-- The `isalpha` of the C locale: `A` to `Z` and `a` to `z`. -/
def isalpha (ch : Char) : Bool :=
  (65 ≤ ch.toNat && ch.toNat ≤ 90) || (97 ≤ ch.toNat && ch.toNat ≤ 122)

/-- The `isalnum` of the C locale: a letter or a digit. -/
def isalnum (ch : Char) : Bool :=
  isalpha ch || isdigit ch

/-! ## Lexer -/

/-- Continuation test of the inner loop of the number branch:
`isdigit(ch) || ch == '.'`. -/
def numberCont (ch : Char) : Bool :=
  isdigit ch || ch == '.'

/-- The `while (ss >> noskipws >> ch)` loop of `lexer`, on the unread part of the
stream. Every iteration reads one character `ch`; the number and function branches
read on while their test holds, and `putback` returns the first character that fails
it to the stream. One unit of fuel is spent per iteration. -/
def lexerLoop : Nat → List Char → Option (List Token)
  | 0, _ => none
  | _ + 1, [] => some []
  | fuel + 1, ch :: rest =>
    if isspace ch then lexerLoop fuel rest
    else if ch = '(' then
      (lexerLoop fuel rest).map (fun tokens => ⟨.LPAREN, ['(']⟩ :: tokens)
    else if ch = ')' then
      (lexerLoop fuel rest).map (fun tokens => ⟨.RPAREN, [')']⟩ :: tokens)
    else if isdigit ch || ch = '-' then
      let num := ch :: rest.takeWhile numberCont
      (lexerLoop fuel (rest.dropWhile numberCont)).map
        (fun tokens => ⟨.NUMBER, num⟩ :: tokens)
    else if ch = '+' || ch = '-' || ch = '*' || ch = '/' then
      (lexerLoop fuel rest).map (fun tokens => ⟨.OPERATOR, [ch]⟩ :: tokens)
    else if isalpha ch then
      let func := ch :: rest.takeWhile isalnum
      (lexerLoop fuel (rest.dropWhile isalnum)).map
        (fun tokens => ⟨.FUNCTION, func⟩ :: tokens)
    else
      (lexerLoop fuel rest).map (fun tokens => ⟨.INVALID, [ch]⟩ :: tokens)

/-- The function `lexer`: the loop run on the whole input, with one unit of fuel per
character and one for the final failed read. -/
def lexer (input : List Char) : Option (List Token) :=
  lexerLoop (input.length + 1) input

/-! ## Parser -/

/-- The token `Token(Token::Type::INVALID, "")` returned at the end of the stream. -/
def endToken : Token := ⟨.INVALID, []⟩

/-- Method `Parser::peek`: the token under the cursor, or `endToken`. -/
def peek (tokens : List Token) (current : Nat) : Token :=
  if h : current < tokens.length then tokens[current] else endToken

/-- Method `Parser::advance`: the token under the cursor and the cursor moved past it,
or `endToken` and the cursor unchanged at the end of the stream. -/
def advance (tokens : List Token) (current : Nat) : Token × Nat :=
  if h : current < tokens.length then (tokens[current], current + 1)
  else (endToken, current)

/-- Outcome of a parsing method: `none` when the fuel ran out, otherwise the thrown
error or the returned string with the cursor after the call. -/
abbrev ParseResult := Option (Except ParseError (List Char × Nat))

mutual

/-- Method `Parser::parseExpression`. -/
def parseExpression : Nat → List Token → Nat → ParseResult
  | 0, _, _ => none
  | fuel + 1, tokens, current =>
    let token := peek tokens current
    if token.type = .LPAREN then
      parseFunctionCall fuel tokens (advance tokens current).2
    else
      some (.error .InvalidExpressionStart)

/-- Method `Parser::parseFunctionCall`. -/
def parseFunctionCall : Nat → List Token → Nat → ParseResult
  | 0, _, _ => none
  | fuel + 1, tokens, current =>
    let functionToken := (advance tokens current).1
    let current := (advance tokens current).2
    if functionToken.type ≠ .FUNCTION then
      some (.error .ExpectedFunctionName)
    else
      let functionName := functionToken.value
      let result := functionName ++ ['(']
      match parseArguments fuel tokens current [] with
      | some (.ok (args, current)) => some (.ok (result ++ args, current))
      | some (.error e) => some (.error e)
      | none => none

/-- The `while (true)` loop of method `Parser::parseArguments`, entered with the
string `args` built so far; the method itself is the loop started on `""`. -/
def parseArguments : Nat → List Token → Nat → List Char → ParseResult
  | 0, _, _, _ => none
  | fuel + 1, tokens, current, args =>
    let token := peek tokens current
    if token.type = .RPAREN then
      some (.ok (args, (advance tokens current).2))
    else
      let step : ParseResult :=
        if token.type = .NUMBER then
          some (.ok (args ++ (advance tokens current).1.value, (advance tokens current).2))
        else if token.type = .OPERATOR then
          some (.ok (args ++ (advance tokens current).1.value, (advance tokens current).2))
        else if token.type = .LPAREN then
          match parseExpression fuel tokens current with
          | some (.ok (nested, current)) => some (.ok (args ++ (['('] ++ nested ++ [')']), current))
          | some (.error e) => some (.error e)
          | none => none
        else
          some (.error .UnexpectedTokenInArguments)
      match step with
      | some (.ok (args, current)) =>
        let token := peek tokens current
        let args :=
          if token.type = .NUMBER ∨ token.type = .OPERATOR ∨ token.type = .LPAREN then
            args ++ [',', ' ']
          else args
        parseArguments fuel tokens current args
      | some (.error e) => some (.error e)
      | none => none

end

/-- Fuel that `parse` gives to `parseExpression`: three units per token and three
more. -/
def parseFuel (tokens : List Token) : Nat :=
  3 * tokens.length + 3

/-- Method `Parser::parse`, with the cursor starting at `0`: `none` when the fuel ran
out, otherwise the thrown error or the returned string. -/
def parse (tokens : List Token) : Option (Except ParseError (List Char)) :=
  if tokens.isEmpty then some (.ok [])
  else
    match parseExpression (parseFuel tokens) tokens 0 with
    | some (.ok (result, current)) =>
      if current < tokens.length then some (.error .UnexpectedTrailingToken)
      else some (.ok result)
    | some (.error e) => some (.error e)
    | none => none

/-- The function `convertLispToC`: `lexer`, then `Parser::parse` on its tokens. -/
def convertLispToC (input : List Char) : Option (Except ParseError (List Char)) :=
  match lexer input with
  | some tokens => parse tokens
  | none => none

/-! ## Auxiliary definitions -/

/-- Sequencing of a parsing step with what follows it: errors and exhausted fuel
propagate, a returned string and cursor are passed on. -/
def ParseResult.andThen (r : ParseResult) (k : List Char → Nat → ParseResult) : ParseResult :=
  match r with
  | some (.ok (s, current)) => k s current
  | some (.error e) => some (.error e)
  | none => none

/-- The text after one argument: `", "` is appended when the pending token starts
another argument. -/
def withSeparator (tokens : List Token) (current : Nat) (args : List Char) : List Char :=
  if (peek tokens current).type = .NUMBER ∨ (peek tokens current).type = .OPERATOR ∨
      (peek tokens current).type = .LPAREN then args ++ [',', ' '] else args

/-- One argument of the loop of `parseArguments`, the token under the cursor not being
`RPAREN`. -/
def argumentStep (fuel : Nat) (tokens : List Token) (current : Nat) (args : List Char) :
    ParseResult :=
  if (peek tokens current).type = .NUMBER ∨ (peek tokens current).type = .OPERATOR then
    some (.ok (args ++ (advance tokens current).1.value, (advance tokens current).2))
  else if (peek tokens current).type = .LPAREN then
    (parseExpression fuel tokens current).andThen
      (fun nested current => some (.ok (args ++ (['('] ++ nested ++ [')']), current)))
  else some (.error .UnexpectedTokenInArguments)

/-- A result with its cursor moved `k` tokens to the right. -/
def ParseResult.shift (k : Nat) (r : ParseResult) : ParseResult :=
  match r with
  | some (.ok (s, current)) => some (.ok (s, k + current))
  | some (.error e) => some (.error e)
  | none => none

/-! ## Grammars -/

/-- Nonterminals of the grammar of section 4.2 of the specification; `arguments` stands
for the repetition `argument*`. -/
inductive Nonterminal where
  | expression
  | functionCall
  | arguments
  | argument
  deriving DecidableEq, Repr

/-- Derivability of a sequence of token kinds in the grammar as the specification
writes it:
`expression := '(' functionCall`, `functionCall := FUNCTION argument* ')'`,
`argument := NUMBER | OPERATOR | '(' expression ')'`. -/
inductive SpecDerives : Nonterminal → List TokenType → Prop where
  | expression {ks : List TokenType} :
      SpecDerives .functionCall ks → SpecDerives .expression (.LPAREN :: ks)
  | functionCall {ks : List TokenType} :
      SpecDerives .arguments ks → SpecDerives .functionCall (.FUNCTION :: (ks ++ [.RPAREN]))
  | argumentsNil : SpecDerives .arguments []
  | argumentsCons {k ks : List TokenType} :
      SpecDerives .argument k → SpecDerives .arguments ks → SpecDerives .arguments (k ++ ks)
  | number : SpecDerives .argument [.NUMBER]
  | operator : SpecDerives .argument [.OPERATOR]
  | nested {ks : List TokenType} :
      SpecDerives .expression ks → SpecDerives .argument (.LPAREN :: (ks ++ [.RPAREN]))

/-- Derivability of a sequence of token kinds in the grammar that the parser follows:
as `SpecDerives`, except that a nested argument is an `expression` itself,
`argument := NUMBER | OPERATOR | expression`. -/
inductive Derives : Nonterminal → List TokenType → Prop where
  | expression {ks : List TokenType} :
      Derives .functionCall ks → Derives .expression (.LPAREN :: ks)
  | functionCall {ks : List TokenType} :
      Derives .arguments ks → Derives .functionCall (.FUNCTION :: (ks ++ [.RPAREN]))
  | argumentsNil : Derives .arguments []
  | argumentsCons {k ks : List TokenType} :
      Derives .argument k → Derives .arguments ks → Derives .arguments (k ++ ks)
  | number : Derives .argument [.NUMBER]
  | operator : Derives .argument [.OPERATOR]
  | nested {ks : List TokenType} :
      Derives .expression ks → Derives .argument ks

/-- What the parser does on tokens whose kinds are `ks`, for each nonterminal, once it
has enough fuel: an `expression` or `functionCall` is consumed whole, `arguments`
followed by an `RPAREN` are consumed through that `RPAREN`, and one `argument` is one
iteration of the loop of `parseArguments`. -/
def Accepts : Nonterminal → List TokenType → Prop
  | .expression, ks => ∀ ts rest : List Token, ts.map Token.type = ks →
      ∃ n s, ∀ m, n ≤ m → parseExpression m (ts ++ rest) 0 = some (.ok (s, ts.length))
  | .functionCall, ks => ∀ ts rest : List Token, ts.map Token.type = ks →
      ∃ n s, ∀ m, n ≤ m → parseFunctionCall m (ts ++ rest) 0 = some (.ok (s, ts.length))
  | .arguments, ks => ∀ (ts : List Token) (rp : Token) (rest : List Token) (args : List Char),
      ts.map Token.type = ks → rp.type = .RPAREN →
      ∃ n s, ∀ m, n ≤ m →
        parseArguments m (ts ++ rp :: rest) 0 args = some (.ok (s, ts.length + 1))
  | .argument, ks => ∀ (ts rest : List Token) (args : List Char), ts.map Token.type = ks →
      ∃ n s, ∀ m, n ≤ m →
        parseArguments (m + 1) (ts ++ rest) 0 args =
          (parseArguments m rest 0 (withSeparator rest 0 s)).shift ts.length

/-- In a sequence derived from a nonterminal of the grammar as the specification writes
it, the count of `LPAREN` plus this number is twice the count of `FUNCTION`. -/
def specParenDebt : Nonterminal → Nat
  | .expression => 1
  | .functionCall => 2
  | .arguments => 0
  | .argument => 0

/-! ## Shape of the tokens that the lexer builds -/

/-- The shape that each branch of `lexer` gives to the token it pushes: the lexeme of a
parenthesis is that parenthesis, a `NUMBER` is a digit or `-` followed by digits and dots,
an `OPERATOR` is one of `+ * /` (a `-` is taken by the number branch before), a `FUNCTION`
is a letter followed by letters and digits, and an `INVALID` is one character that passed
none of the tests. -/
def Token.WellFormed (t : Token) : Prop :=
  match t.type with
  | .FUNCTION => ∃ c rest, t.value = c :: rest ∧ isalpha c = true ∧ ∀ x ∈ rest, isalnum x = true
  | .NUMBER => ∃ c rest, t.value = c :: rest ∧ (isdigit c = true ∨ c = '-') ∧
      ∀ x ∈ rest, numberCont x = true
  | .OPERATOR => t.value = ['+'] ∨ t.value = ['*'] ∨ t.value = ['/']
  | .LPAREN => t.value = ['(']
  | .RPAREN => t.value = [')']
  | .INVALID => ∃ c, t.value = [c] ∧ isspace c = false ∧ c ≠ '(' ∧ c ≠ ')' ∧
      isdigit c = false ∧ isalpha c = false ∧ c ≠ '-' ∧ c ≠ '+' ∧ c ≠ '*' ∧ c ≠ '/'

/-! ## Complete s-expressions over tokens -/

/-- The two kinds of token sequences in the description of a complete s-expression. -/
inductive Part where
  | sExpression
  | argumentList
  deriving DecidableEq, Repr

/-- A complete s-expression is an `LPAREN`, a `FUNCTION` token, an argument list and an
`RPAREN`; an argument list is empty, or starts with a `NUMBER` token, an `OPERATOR` token or
a complete s-expression and goes on with an argument list. -/
inductive IsPart : Part → List Token → Prop where
  | sExpression {lp f rp : Token} {as : List Token} :
      lp.type = .LPAREN → f.type = .FUNCTION → rp.type = .RPAREN →
      IsPart .argumentList as → IsPart .sExpression ([lp, f] ++ as ++ [rp])
  | empty : IsPart .argumentList []
  | number {t : Token} {as : List Token} :
      t.type = .NUMBER → IsPart .argumentList as → IsPart .argumentList (t :: as)
  | operator {t : Token} {as : List Token} :
      t.type = .OPERATOR → IsPart .argumentList as → IsPart .argumentList (t :: as)
  | nested {e as : List Token} :
      IsPart .sExpression e → IsPart .argumentList as → IsPart .argumentList (e ++ as)

/-- The token sequences with kinds `ks`, per nonterminal of the parser's grammar, as parts
of a complete s-expression. -/
def PartOf : Nonterminal → List TokenType → Prop
  | .expression, ks => ∀ ts : List Token, ts.map Token.type = ks → IsPart .sExpression ts
  | .functionCall, ks => ∀ (ts : List Token) (lp : Token), ts.map Token.type = ks →
      lp.type = .LPAREN → IsPart .sExpression (lp :: ts)
  | .arguments, ks => ∀ ts : List Token, ts.map Token.type = ks → IsPart .argumentList ts
  | .argument, ks => ∀ ts as : List Token, ts.map Token.type = ks →
      IsPart .argumentList as → IsPart .argumentList (ts ++ as)

/-! ## The text that the parser emits -/

/-- Texts of arguments with `", "` between each two neighbours. -/
def joinArgs : List (List Char) → List Char
  | [] => []
  | [x] => x
  | x :: y :: xs => x ++ [',', ' '] ++ joinArgs (y :: xs)

/-- `Emits nt ts xs`: the tokens `ts` form the nonterminal `nt` of the parser's grammar and
the parser emits the texts `xs` for them: one text for an expression, a function call or an
argument, and one text per argument for an argument list. The text of a call is its name,
`(` and its arguments joined by `", "`, with no closing parenthesis; the text of a nested
call is put between `(` and `)`. -/
inductive Emits : Nonterminal → List Token → List (List Char) → Prop where
  | expression {lp : Token} {ts : List Token} {xs : List (List Char)} :
      lp.type = .LPAREN → Emits .functionCall ts xs → Emits .expression (lp :: ts) xs
  | functionCall {f rp : Token} {as : List Token} {xs : List (List Char)} :
      f.type = .FUNCTION → rp.type = .RPAREN → Emits .arguments as xs →
      Emits .functionCall (f :: (as ++ [rp])) [f.value ++ ['('] ++ joinArgs xs]
  | argumentsNil : Emits .arguments [] []
  | argumentsCons {a as : List Token} {x : List Char} {xs : List (List Char)} :
      Emits .argument a [x] → Emits .arguments as xs → Emits .arguments (a ++ as) (x :: xs)
  | number {t : Token} : t.type = .NUMBER → Emits .argument [t] [t.value]
  | operator {t : Token} : t.type = .OPERATOR → Emits .argument [t] [t.value]
  | nested {ts : List Token} {s : List Char} :
      Emits .expression ts [s] → Emits .argument ts [['('] ++ s ++ [')']]

/-- What the parser returns on tokens that emit the texts `xs`, once it has enough fuel:
the string returned for an expression or a function call is its text; the loop of
`parseArguments` appends the joined texts of an argument list to its string, and the text
of one argument in one iteration. -/
def Returns : Nonterminal → List Token → List (List Char) → Prop
  | .expression, ts, xs => ∀ rest : List Token,
      ∃ n, ∀ m, n ≤ m → parseExpression m (ts ++ rest) 0 = some (.ok (xs.flatten, ts.length))
  | .functionCall, ts, xs => ∀ rest : List Token,
      ∃ n, ∀ m, n ≤ m → parseFunctionCall m (ts ++ rest) 0 = some (.ok (xs.flatten, ts.length))
  | .arguments, ts, xs => ∀ (rp : Token) (rest : List Token) (args : List Char),
      rp.type = .RPAREN →
      ∃ n, ∀ m, n ≤ m → parseArguments m (ts ++ rp :: rest) 0 args =
        some (.ok (args ++ joinArgs xs, ts.length + 1))
  | .argument, ts, xs => ∀ (rest : List Token) (args : List Char),
      ∃ n, ∀ m, n ≤ m → parseArguments (m + 1) (ts ++ rest) 0 args =
        (parseArguments m rest 0 (withSeparator rest 0 (args ++ xs.flatten))).shift ts.length

/-! ## Characters that the parser adds -/

/-- A character other than the four that the parser adds to the lexemes: `(`, `)`, `,` and
the space. -/
def isLexemeChar (c : Char) : Bool :=
  !(c == '(' || c == ')' || c == ',' || c == ' ')

/-- A character that is neither whitespace nor a parenthesis. -/
def isOperandChar (c : Char) : Bool :=
  !isspace c && !(c == '(' || c == ')')

/-- What a token gives to the emitted text, once `(`, `)`, `,` and spaces are deleted: its
lexeme, a parenthesis token giving nothing. -/
def contribution (t : Token) : List Char :=
  if t.type = .LPAREN ∨ t.type = .RPAREN then [] else t.value.filter isLexemeChar

/-- Two neighbours in the emitted text: not a space before `)`, not a `,` after `(`. -/
def sepOK (a b : Char) : Prop :=
  ¬ (a = ' ' ∧ b = ')') ∧ ¬ (a = '(' ∧ b = ',')

/-- A text without a misplaced separator: no space before `)`, no `,` after `(`, no `,` or
`)` at the start, no space at the end. -/
def Tidy (x : List Char) : Prop :=
  List.Chain' sepOK x ∧ (∀ c ∈ x.head?, c ≠ ',' ∧ c ≠ ')') ∧ (∀ c ∈ x.getLast?, c ≠ ' ')

/-! # Properties -/

/-! ## Unfolding equations -/

theorem parseExpression_zero (tokens : List Token) (current : Nat) :
    parseExpression 0 tokens current = none := rfl

theorem parseFunctionCall_zero (tokens : List Token) (current : Nat) :
    parseFunctionCall 0 tokens current = none := rfl

theorem parseArguments_zero (tokens : List Token) (current : Nat) (args : List Char) :
    parseArguments 0 tokens current args = none := rfl

theorem parseExpression_succ (fuel : Nat) (tokens : List Token) (current : Nat) :
    parseExpression (fuel + 1) tokens current =
      if (peek tokens current).type = .LPAREN then
        parseFunctionCall fuel tokens (advance tokens current).2
      else some (.error .InvalidExpressionStart) := rfl

theorem parseFunctionCall_succ (fuel : Nat) (tokens : List Token) (current : Nat) :
    parseFunctionCall (fuel + 1) tokens current =
      if (advance tokens current).1.type = .FUNCTION then
        (parseArguments fuel tokens (advance tokens current).2 []).andThen
          (fun args next =>
            some (.ok ((advance tokens current).1.value ++ ['('] ++ args, next)))
      else some (.error .ExpectedFunctionName) := by
  rw [parseFunctionCall]
  simp only [ParseResult.andThen]
  by_cases h : (advance tokens current).1.type = .FUNCTION
  · simp only [h, ne_eq, not_true_eq_false, if_false, if_true]
  · simp [h]

theorem parseArguments_succ (fuel : Nat) (tokens : List Token) (current : Nat)
    (args : List Char) :
    parseArguments (fuel + 1) tokens current args =
      if (peek tokens current).type = .RPAREN then
        some (.ok (args, (advance tokens current).2))
      else
        (argumentStep fuel tokens current args).andThen
          (fun args next =>
            parseArguments fuel tokens next (withSeparator tokens next args)) := by
  rw [parseArguments]
  simp only [ParseResult.andThen, argumentStep, withSeparator]
  by_cases h1 : (peek tokens current).type = .RPAREN
  · simp [h1]
  · simp only [h1, if_false]
    by_cases h2 : (peek tokens current).type = .NUMBER
    · simp [h2]
    · by_cases h3 : (peek tokens current).type = .OPERATOR
      · simp [h3]
      · by_cases h4 : (peek tokens current).type = .LPAREN
        · simp only [h4, if_true, if_false, false_or, reduceCtorEq]
        · simp [h2, h3, h4]

theorem andThen_eq_some {r : ParseResult} {k : List Char → Nat → ParseResult}
    {y : Except ParseError (List Char × Nat)} (h : r.andThen k = some y) :
    (∃ e, r = some (.error e) ∧ y = .error e) ∨
    (∃ s c, r = some (.ok (s, c)) ∧ k s c = some y) := by
  unfold ParseResult.andThen at h
  split at h
  · exact Or.inr ⟨_, _, rfl, h⟩
  · exact Or.inl ⟨_, rfl, by simpa using h.symm⟩
  · simp at h

theorem andThen_eq_ok {r : ParseResult} {k : List Char → Nat → ParseResult}
    {x : List Char × Nat} (h : r.andThen k = some (.ok x)) :
    ∃ s c, r = some (.ok (s, c)) ∧ k s c = some (.ok x) := by
  rcases andThen_eq_some h with ⟨e, _, he⟩ | h
  · simp at he
  · exact h

theorem andThen_ok (s : List Char) (c : Nat) (k : List Char → Nat → ParseResult) :
    ParseResult.andThen (some (.ok (s, c))) k = k s c := rfl

theorem andThen_error (e : ParseError) (k : List Char → Nat → ParseResult) :
    ParseResult.andThen (some (.error e)) k = some (.error e) := rfl

theorem andThen_none (k : List Char → Nat → ParseResult) :
    ParseResult.andThen none k = none := rfl

/-! ## Fuel -/

theorem parse_fuel_succ (n : Nat) :
    (∀ tokens current r, parseExpression n tokens current = some r →
      parseExpression (n + 1) tokens current = some r) ∧
    (∀ tokens current r, parseFunctionCall n tokens current = some r →
      parseFunctionCall (n + 1) tokens current = some r) ∧
    (∀ tokens current args r, parseArguments n tokens current args = some r →
      parseArguments (n + 1) tokens current args = some r) := by
  induction n with
  | zero =>
    refine ⟨?_, ?_, ?_⟩ <;> intros <;>
      simp_all [parseExpression_zero, parseFunctionCall_zero, parseArguments_zero]
  | succ n ih =>
    obtain ⟨ihE, ihF, ihA⟩ := ih
    refine ⟨?_, ?_, ?_⟩
    · intro tokens current r h
      rw [parseExpression_succ] at h ⊢
      by_cases hc : (peek tokens current).type = .LPAREN
      · rw [if_pos hc] at h ⊢
        exact ihF _ _ _ h
      · rw [if_neg hc] at h ⊢
        exact h
    · intro tokens current r h
      rw [parseFunctionCall_succ] at h ⊢
      by_cases hc : (advance tokens current).1.type = .FUNCTION
      · rw [if_pos hc] at h ⊢
        rcases andThen_eq_some h with ⟨e, he, hr⟩ | ⟨s, c, hs, hk⟩
        · rw [ihA _ _ _ _ he, hr]; rfl
        · rw [ihA _ _ _ _ hs]; exact hk
      · rw [if_neg hc] at h ⊢
        exact h
    · intro tokens current args r h
      rw [parseArguments_succ] at h ⊢
      by_cases hc : (peek tokens current).type = .RPAREN
      · rw [if_pos hc] at h ⊢
        exact h
      · rw [if_neg hc] at h ⊢
        have hstep : ∀ x, argumentStep n tokens current args = some x →
            argumentStep (n + 1) tokens current args = some x := by
          intro x hx
          unfold argumentStep at hx ⊢
          split at hx
          · rw [if_pos (by assumption)]
            exact hx
          · rw [if_neg (by assumption)]
            split at hx
            · rw [if_pos (by assumption)]
              rcases andThen_eq_some hx with ⟨e, he, hr⟩ | ⟨s, c, hs, hk⟩
              · rw [ihE _ _ _ he, hr]; rfl
              · rw [ihE _ _ _ hs]; exact hk
            · rw [if_neg (by assumption)]
              exact hx
        rcases andThen_eq_some h with ⟨e, he, hr⟩ | ⟨s, c, hs, hk⟩
        · rw [hstep _ he, hr]; rfl
        · rw [hstep _ hs]; exact ihA _ _ _ _ hk

theorem parseExpression_fuel_le {n m : Nat} (hnm : n ≤ m) {tokens : List Token}
    {current : Nat} {r : Except ParseError (List Char × Nat)}
    (h : parseExpression n tokens current = some r) :
    parseExpression m tokens current = some r := by
  induction hnm with
  | refl => exact h
  | step _ ih => exact (parse_fuel_succ _).1 _ _ _ ih

theorem parseFunctionCall_fuel_le {n m : Nat} (hnm : n ≤ m) {tokens : List Token}
    {current : Nat} {r : Except ParseError (List Char × Nat)}
    (h : parseFunctionCall n tokens current = some r) :
    parseFunctionCall m tokens current = some r := by
  induction hnm with
  | refl => exact h
  | step _ ih => exact (parse_fuel_succ _).2.1 _ _ _ ih

theorem parseArguments_fuel_le {n m : Nat} (hnm : n ≤ m) {tokens : List Token}
    {current : Nat} {args : List Char} {r : Except ParseError (List Char × Nat)}
    (h : parseArguments n tokens current args = some r) :
    parseArguments m tokens current args = some r := by
  induction hnm with
  | refl => exact h
  | step _ ih => exact (parse_fuel_succ _).2.2 _ _ _ _ ih

/-! ## Cursor -/

theorem advance_fst (tokens : List Token) (current : Nat) :
    (advance tokens current).1 = peek tokens current := by
  unfold advance peek
  split <;> rfl

theorem advance_snd_of_lt {tokens : List Token} {current : Nat}
    (h : current < tokens.length) : (advance tokens current).2 = current + 1 := by
  unfold advance
  rw [dif_pos h]

theorem advance_snd_of_ge {tokens : List Token} {current : Nat}
    (h : tokens.length ≤ current) : (advance tokens current).2 = current := by
  unfold advance
  rw [dif_neg (by omega)]

theorem peek_of_ge {tokens : List Token} {current : Nat}
    (h : tokens.length ≤ current) : peek tokens current = endToken := by
  unfold peek
  rw [dif_neg (by omega)]

theorem lt_of_peek_type {tokens : List Token} {current : Nat}
    (h : (peek tokens current).type ≠ .INVALID) : current < tokens.length := by
  by_contra hlt
  rw [peek_of_ge (by omega)] at h
  exact h rfl

theorem peek_append_left {tokens : List Token} {current : Nat}
    (h : current < tokens.length) (extra : List Token) :
    peek (tokens ++ extra) current = peek tokens current := by
  unfold peek
  rw [dif_pos h, dif_pos (by rw [List.length_append]; omega)]
  exact List.getElem_append_left h

theorem peek_append_right (pre tokens : List Token) (current : Nat) :
    peek (pre ++ tokens) (pre.length + current) = peek tokens current := by
  unfold peek
  by_cases h : current < tokens.length
  · rw [dif_pos h, dif_pos (by rw [List.length_append]; omega)]
    rw [List.getElem_append_right (by omega)]
    simp
  · rw [dif_neg h, dif_neg (by rw [List.length_append]; omega)]

theorem advance_snd_append_right (pre tokens : List Token) (current : Nat) :
    (advance (pre ++ tokens) (pre.length + current)).2 =
      pre.length + (advance tokens current).2 := by
  by_cases h : current < tokens.length
  · rw [advance_snd_of_lt h, advance_snd_of_lt (by rw [List.length_append]; omega)]
    omega
  · have h1 : tokens.length ≤ current := by omega
    rw [advance_snd_of_ge h1, advance_snd_of_ge (by rw [List.length_append]; omega)]

/-! ## Tokens before the cursor are never read -/

theorem shift_andThen (k : Nat) (r : ParseResult) (f : List Char → Nat → ParseResult) :
    (r.shift k).andThen f = r.andThen (fun s c => f s (k + c)) := by
  rcases r with _ | ⟨e | ⟨s, c⟩⟩ <;> rfl

theorem andThen_shift (k : Nat) (r : ParseResult) (f : List Char → Nat → ParseResult) :
    (r.andThen f).shift k = r.andThen (fun s c => (f s c).shift k) := by
  rcases r with _ | ⟨e | ⟨s, c⟩⟩ <;> rfl

theorem withSeparator_append_right (pre tokens : List Token) (current : Nat)
    (args : List Char) :
    withSeparator (pre ++ tokens) (pre.length + current) args =
      withSeparator tokens current args := by
  unfold withSeparator
  rw [peek_append_right]

theorem parse_append_right (n : Nat) :
    (∀ pre tokens current, parseExpression n (pre ++ tokens) (pre.length + current) =
      (parseExpression n tokens current).shift pre.length) ∧
    (∀ pre tokens current, parseFunctionCall n (pre ++ tokens) (pre.length + current) =
      (parseFunctionCall n tokens current).shift pre.length) ∧
    (∀ pre tokens current args,
      parseArguments n (pre ++ tokens) (pre.length + current) args =
        (parseArguments n tokens current args).shift pre.length) := by
  induction n with
  | zero => exact ⟨fun _ _ _ => rfl, fun _ _ _ => rfl, fun _ _ _ _ => rfl⟩
  | succ n ih =>
    obtain ⟨ihE, ihF, ihA⟩ := ih
    refine ⟨?_, ?_, ?_⟩
    · intro pre tokens current
      rw [parseExpression_succ, parseExpression_succ, peek_append_right,
        advance_snd_append_right, ihF]
      split <;> rfl
    · intro pre tokens current
      rw [parseFunctionCall_succ, parseFunctionCall_succ, advance_fst, advance_fst,
        peek_append_right, advance_snd_append_right, ihA, shift_andThen]
      split
      · rw [andThen_shift]; rfl
      · rfl
    · intro pre tokens current args
      have hstep : argumentStep n (pre ++ tokens) (pre.length + current) args =
          (argumentStep n tokens current args).shift pre.length := by
        unfold argumentStep
        rw [advance_fst, advance_fst, peek_append_right, advance_snd_append_right, ihE,
          shift_andThen]
        split
        · rfl
        · split
          · rw [andThen_shift]; rfl
          · rfl
      rw [parseArguments_succ, parseArguments_succ, peek_append_right,
        advance_snd_append_right, hstep, shift_andThen]
      split
      · rfl
      · rw [andThen_shift]
        congr 1
        funext s c
        rw [withSeparator_append_right, ihA]

theorem parseExpression_append_right (n : Nat) (pre tokens : List Token) :
    parseExpression n (pre ++ tokens) pre.length =
      (parseExpression n tokens 0).shift pre.length :=
  (parse_append_right n).1 pre tokens 0

theorem parseFunctionCall_append_right (n : Nat) (pre tokens : List Token) :
    parseFunctionCall n (pre ++ tokens) pre.length =
      (parseFunctionCall n tokens 0).shift pre.length :=
  (parse_append_right n).2.1 pre tokens 0

theorem parseArguments_append_right (n : Nat) (pre tokens : List Token) (args : List Char) :
    parseArguments n (pre ++ tokens) pre.length args =
      (parseArguments n tokens 0 args).shift pre.length :=
  (parse_append_right n).2.2 pre tokens 0 args

/-! ## Progress of the cursor -/

theorem parse_progress (n : Nat) :
    (∀ tokens current s c, parseExpression n tokens current = some (.ok (s, c)) →
      current + 2 ≤ c ∧ c ≤ tokens.length) ∧
    (∀ tokens current s c, parseFunctionCall n tokens current = some (.ok (s, c)) →
      current + 1 ≤ c ∧ c ≤ tokens.length) ∧
    (∀ tokens current args s c, parseArguments n tokens current args = some (.ok (s, c)) →
      current + 1 ≤ c ∧ c ≤ tokens.length) := by
  induction n with
  | zero =>
    refine ⟨?_, ?_, ?_⟩ <;> intros <;>
      simp_all [parseExpression_zero, parseFunctionCall_zero, parseArguments_zero]
  | succ n ih =>
    obtain ⟨ihE, ihF, ihA⟩ := ih
    refine ⟨?_, ?_, ?_⟩
    · intro tokens current s c h
      rw [parseExpression_succ] at h
      split at h
      · rename_i hc
        have hlt : current < tokens.length := lt_of_peek_type (by rw [hc]; decide)
        rw [advance_snd_of_lt hlt] at h
        have := ihF _ _ _ _ h
        omega
      · simp at h
    · intro tokens current s c h
      rw [parseFunctionCall_succ] at h
      split at h
      · rename_i hc
        rw [advance_fst] at hc
        have hlt : current < tokens.length := lt_of_peek_type (by rw [hc]; decide)
        rw [advance_snd_of_lt hlt] at h
        obtain ⟨a, c1, ha, hk⟩ := andThen_eq_ok h
        have := ihA _ _ _ _ _ ha
        simp only [Option.some.injEq, Except.ok.injEq, Prod.mk.injEq] at hk
        omega
      · simp at h
    · intro tokens current args s c h
      rw [parseArguments_succ] at h
      split at h
      · rename_i hc
        have hlt : current < tokens.length := lt_of_peek_type (by rw [hc]; decide)
        rw [advance_snd_of_lt hlt] at h
        simp only [Option.some.injEq, Except.ok.injEq, Prod.mk.injEq] at h
        omega
      · obtain ⟨a, c1, ha, hk⟩ := andThen_eq_ok h
        have hk := ihA _ _ _ _ _ hk
        have hc1 : current + 1 ≤ c1 := by
          unfold argumentStep at ha
          split at ha
          · rename_i hc
            have hlt : current < tokens.length :=
              lt_of_peek_type (by rcases hc with hc | hc <;> rw [hc] <;> decide)
            rw [advance_snd_of_lt hlt] at ha
            simp only [Option.some.injEq, Except.ok.injEq, Prod.mk.injEq] at ha
            omega
          · split at ha
            · obtain ⟨a1, c2, ha1, hk1⟩ := andThen_eq_ok ha
              have := ihE _ _ _ _ ha1
              simp only [Option.some.injEq, Except.ok.injEq, Prod.mk.injEq] at hk1
              omega
            · simp at ha
        omega

/-! ## Termination -/

theorem parse_fuel_enough (n : Nat) :
    (∀ tokens current, 3 * (tokens.length - current) + 1 ≤ n →
      parseExpression n tokens current ≠ none) ∧
    (∀ tokens current, 3 * (tokens.length - current) + 1 ≤ n →
      parseFunctionCall n tokens current ≠ none) ∧
    (∀ tokens current args, 3 * (tokens.length - current) + 2 ≤ n →
      parseArguments n tokens current args ≠ none) := by
  induction n with
  | zero => exact ⟨fun _ _ h => by omega, fun _ _ h => by omega, fun _ _ _ h => by omega⟩
  | succ n ih =>
    obtain ⟨ihE, ihF, ihA⟩ := ih
    refine ⟨?_, ?_, ?_⟩
    · intro tokens current hn
      rw [parseExpression_succ]
      split
      · rename_i hc
        have hlt : current < tokens.length := lt_of_peek_type (by rw [hc]; decide)
        rw [advance_snd_of_lt hlt]
        exact ihF _ _ (by omega)
      · simp
    · intro tokens current hn
      rw [parseFunctionCall_succ]
      split
      · rename_i hc
        rw [advance_fst] at hc
        have hlt : current < tokens.length := lt_of_peek_type (by rw [hc]; decide)
        rw [advance_snd_of_lt hlt]
        have := ihA tokens (current + 1) [] (by omega)
        rcases hA : parseArguments n tokens (current + 1) [] with _ | ⟨e | ⟨s, c⟩⟩
        · exact absurd hA this
        · simp [andThen_error]
        · simp [andThen_ok]
      · simp
    · intro tokens current args hn
      rw [parseArguments_succ]
      split
      · simp
      · rcases hS : argumentStep n tokens current args with _ | ⟨e | ⟨s, c⟩⟩
        · exfalso
          unfold argumentStep at hS
          split at hS
          · simp at hS
          · split at hS
            · have := ihE tokens current (by omega)
              rcases hE : parseExpression n tokens current with _ | ⟨e | ⟨s, c⟩⟩
              · exact this hE
              · rw [hE] at hS; simp [andThen_error] at hS
              · rw [hE] at hS; simp [andThen_ok] at hS
            · simp at hS
        · simp [andThen_error]
        · rw [andThen_ok]
          have hc : current + 1 ≤ c ∧ current < tokens.length := by
            unfold argumentStep at hS
            split at hS
            · rename_i hc
              have hlt : current < tokens.length :=
                lt_of_peek_type (by rcases hc with hc | hc <;> rw [hc] <;> decide)
              rw [advance_snd_of_lt hlt] at hS
              simp only [Option.some.injEq, Except.ok.injEq, Prod.mk.injEq] at hS
              omega
            · split at hS
              · obtain ⟨a1, c2, ha1, hk1⟩ := andThen_eq_ok hS
                have := (parse_progress n).1 _ _ _ _ ha1
                simp only [Option.some.injEq, Except.ok.injEq, Prod.mk.injEq] at hk1
                omega
              · simp at hS
          exact ihA _ _ _ (by omega)

/-! ## The top-level method -/

theorem parseExpression_parseFuel_ne_none (tokens : List Token) :
    parseExpression (parseFuel tokens) tokens 0 ≠ none :=
  (parse_fuel_enough _).1 tokens 0 (by unfold parseFuel; omega)

theorem parse_ne_none (tokens : List Token) : parse tokens ≠ none := by
  unfold parse
  split
  · simp
  · have := parseExpression_parseFuel_ne_none tokens
    split
    · split <;> simp
    · simp
    · contradiction

theorem parse_nil : parse [] = some (.ok []) := rfl

theorem parse_cons (t : Token) (ts : List Token) :
    parse (t :: ts) =
      match parseExpression (parseFuel (t :: ts)) (t :: ts) 0 with
      | some (.ok (result, current)) =>
        if current < (t :: ts).length then some (.error .UnexpectedTrailingToken)
        else some (.ok result)
      | some (.error e) => some (.error e)
      | none => none := rfl

/-- With any amount of fuel that lets `parseExpression` finish, `parse` is determined by
that run. -/
theorem parse_of_ok {n : Nat} {tokens : List Token} {s : List Char} {c : Nat}
    (hne : tokens ≠ []) (h : parseExpression n tokens 0 = some (.ok (s, c))) :
    parse tokens =
      if c < tokens.length then some (.error .UnexpectedTrailingToken) else some (.ok s) := by
  have h2 : parseExpression (parseFuel tokens) tokens 0 = some (.ok (s, c)) := by
    rcases Nat.le_total n (parseFuel tokens) with hle | hle
    · exact parseExpression_fuel_le hle h
    · rcases hr : parseExpression (parseFuel tokens) tokens 0 with _ | r
      · exact absurd hr (parseExpression_parseFuel_ne_none tokens)
      · rw [parseExpression_fuel_le hle hr] at h
        rw [h]
  cases tokens with
  | nil => exact absurd rfl hne
  | cons t ts => rw [parse_cons, h2]

theorem parse_of_error {n : Nat} {tokens : List Token} {e : ParseError}
    (hne : tokens ≠ []) (h : parseExpression n tokens 0 = some (.error e)) :
    parse tokens = some (.error e) := by
  have h2 : parseExpression (parseFuel tokens) tokens 0 = some (.error e) := by
    rcases Nat.le_total n (parseFuel tokens) with hle | hle
    · exact parseExpression_fuel_le hle h
    · rcases hr : parseExpression (parseFuel tokens) tokens 0 with _ | r
      · exact absurd hr (parseExpression_parseFuel_ne_none tokens)
      · rw [parseExpression_fuel_le hle hr] at h
        rw [h]
  cases tokens with
  | nil => exact absurd rfl hne
  | cons t ts => rw [parse_cons, h2]

theorem parse_eq_ok {tokens : List Token} {s : List Char} (hne : tokens ≠ [])
    (h : parse tokens = some (.ok s)) :
    parseExpression (parseFuel tokens) tokens 0 = some (.ok (s, tokens.length)) := by
  cases tokens with
  | nil => exact absurd rfl hne
  | cons t ts =>
    rw [parse_cons] at h
    rcases hr : parseExpression (parseFuel (t :: ts)) (t :: ts) 0 with _ | ⟨e | ⟨s1, c⟩⟩
    · rw [hr] at h; simp at h
    · rw [hr] at h; simp at h
    · rw [hr] at h
      have hp := (parse_progress _).1 _ _ _ _ hr
      dsimp only at h
      split at h
      · simp at h
      · simp only [Option.some.injEq, Except.ok.injEq] at h
        have : c = (t :: ts).length := by omega
        rw [this, h]

/-! ## The parser on the tokens from the cursor on -/

theorem peek_cons_zero (t : Token) (ts : List Token) : peek (t :: ts) 0 = t := by
  simp [peek]

theorem peek_nil (current : Nat) : peek [] current = endToken := rfl

theorem advance_cons_zero (t : Token) (ts : List Token) : advance (t :: ts) 0 = (t, 1) := by
  simp [advance]

theorem advance_nil (current : Nat) : advance [] current = (endToken, current) := rfl

theorem shift_eq_ok {k : Nat} {r : ParseResult} {s : List Char} {c : Nat}
    (h : r.shift k = some (.ok (s, c))) : ∃ d, r = some (.ok (s, d)) ∧ c = k + d := by
  rcases r with _ | ⟨e | ⟨s1, d⟩⟩
  · simp [ParseResult.shift] at h
  · simp [ParseResult.shift] at h
  · simp only [ParseResult.shift, Option.some.injEq, Except.ok.injEq, Prod.mk.injEq] at h
    exact ⟨d, by rw [h.1], h.2.symm⟩

theorem shift_ok (k : Nat) (s : List Char) (c : Nat) :
    ParseResult.shift k (some (.ok (s, c))) = some (.ok (s, k + c)) := rfl

theorem shift_error (k : Nat) (e : ParseError) :
    ParseResult.shift k (some (.error e)) = some (.error e) := rfl

theorem parseFunctionCall_cons_one (n : Nat) (t : Token) (ts : List Token) :
    parseFunctionCall n (t :: ts) 1 = (parseFunctionCall n ts 0).shift 1 :=
  parseFunctionCall_append_right n [t] ts

theorem parseArguments_cons_one (n : Nat) (t : Token) (ts : List Token) (args : List Char) :
    parseArguments n (t :: ts) 1 args = (parseArguments n ts 0 args).shift 1 :=
  parseArguments_append_right n [t] ts args

theorem withSeparator_cons_one (t : Token) (ts : List Token) (args : List Char) :
    withSeparator (t :: ts) 1 args = withSeparator ts 0 args :=
  withSeparator_append_right [t] ts 0 args

theorem parseExpression_nil (n : Nat) :
    parseExpression (n + 1) [] 0 = some (.error .InvalidExpressionStart) := rfl

theorem parseExpression_cons (n : Nat) (t : Token) (ts : List Token) :
    parseExpression (n + 1) (t :: ts) 0 =
      if t.type = .LPAREN then (parseFunctionCall n ts 0).shift 1
      else some (.error .InvalidExpressionStart) := by
  rw [parseExpression_succ, peek_cons_zero, advance_cons_zero, parseFunctionCall_cons_one]

theorem parseFunctionCall_nil (n : Nat) :
    parseFunctionCall (n + 1) [] 0 = some (.error .ExpectedFunctionName) := rfl

theorem parseFunctionCall_cons (n : Nat) (t : Token) (ts : List Token) :
    parseFunctionCall (n + 1) (t :: ts) 0 =
      if t.type = .FUNCTION then
        ((parseArguments n ts 0 []).shift 1).andThen
          (fun args next => some (.ok (t.value ++ ['('] ++ args, next)))
      else some (.error .ExpectedFunctionName) := by
  rw [parseFunctionCall_succ, advance_cons_zero, parseArguments_cons_one]

theorem parseArguments_nil (n : Nat) (args : List Char) :
    parseArguments (n + 1) [] 0 args = some (.error .UnexpectedTokenInArguments) := rfl

theorem parseArguments_cons_close (n : Nat) {t : Token} (ts : List Token) (args : List Char)
    (ht : t.type = .RPAREN) :
    parseArguments (n + 1) (t :: ts) 0 args = some (.ok (args, 1)) := by
  rw [parseArguments_succ, peek_cons_zero, if_pos ht, advance_cons_zero]

theorem parseArguments_cons_simple (n : Nat) {t : Token} (ts : List Token) (args : List Char)
    (ht : t.type = .NUMBER ∨ t.type = .OPERATOR) :
    parseArguments (n + 1) (t :: ts) 0 args =
      (parseArguments n ts 0 (withSeparator ts 0 (args ++ t.value))).shift 1 := by
  have h1 : t.type ≠ .RPAREN := by rcases ht with h | h <;> rw [h] <;> decide
  rw [parseArguments_succ, peek_cons_zero, if_neg h1]
  unfold argumentStep
  rw [peek_cons_zero, if_pos ht, advance_cons_zero, andThen_ok, withSeparator_cons_one,
    parseArguments_cons_one]

theorem parseArguments_cons_nested (n : Nat) {t : Token} (ts : List Token) (args : List Char)
    (ht : t.type = .LPAREN) :
    parseArguments (n + 1) (t :: ts) 0 args =
      (parseExpression n (t :: ts) 0).andThen (fun nested next =>
        parseArguments n (t :: ts) next
          (withSeparator (t :: ts) next (args ++ (['('] ++ nested ++ [')'])))) := by
  rw [parseArguments_succ, peek_cons_zero, if_neg (by rw [ht]; decide)]
  unfold argumentStep
  rw [peek_cons_zero, if_neg (by rw [ht]; simp), if_pos ht]
  rcases parseExpression n (t :: ts) 0 with _ | ⟨e | ⟨s, c⟩⟩ <;> rfl

theorem parseArguments_cons_other (n : Nat) {t : Token} (ts : List Token) (args : List Char)
    (ht : t.type = .FUNCTION ∨ t.type = .INVALID) :
    parseArguments (n + 1) (t :: ts) 0 args = some (.error .UnexpectedTokenInArguments) := by
  rw [parseArguments_succ, peek_cons_zero,
    if_neg (by rcases ht with h | h <;> rw [h] <;> decide)]
  unfold argumentStep
  rw [peek_cons_zero, if_neg (by rcases ht with h | h <;> rw [h] <;> simp),
    if_neg (by rcases ht with h | h <;> rw [h] <;> decide)]
  rfl

/-- Tokens at and after position `c`, as the parser sees them from cursor `c`. -/
theorem parseArguments_at (n : Nat) (tokens : List Token) (c : Nat) (args : List Char)
    (hc : c ≤ tokens.length) :
    parseArguments n tokens c args =
      (parseArguments n (tokens.drop c) 0 args).shift c := by
  have h := parseArguments_append_right n (tokens.take c) (tokens.drop c) args
  rw [List.take_append_drop, List.length_take, Nat.min_eq_left hc] at h
  exact h

theorem withSeparator_at (tokens : List Token) (c : Nat) (args : List Char)
    (hc : c ≤ tokens.length) :
    withSeparator tokens c args = withSeparator (tokens.drop c) 0 args := by
  have h := withSeparator_append_right (tokens.take c) (tokens.drop c) 0 args
  rw [List.take_append_drop, List.length_take, Nat.min_eq_left hc] at h
  exact h

/-! ## Soundness: what the parser accepts is derivable -/

theorem parse_sound (n : Nat) :
    (∀ ts s c, parseExpression n ts 0 = some (.ok (s, c)) →
      Derives .expression ((ts.take c).map Token.type)) ∧
    (∀ ts s c, parseFunctionCall n ts 0 = some (.ok (s, c)) →
      Derives .functionCall ((ts.take c).map Token.type)) ∧
    (∀ ts args s c, parseArguments n ts 0 args = some (.ok (s, c)) →
      ∃ ks, Derives .arguments ks ∧ (ts.take c).map Token.type = ks ++ [.RPAREN]) := by
  induction n with
  | zero =>
    refine ⟨?_, ?_, ?_⟩ <;> intros <;>
      simp_all [parseExpression_zero, parseFunctionCall_zero, parseArguments_zero]
  | succ n ih =>
    obtain ⟨ihE, ihF, ihA⟩ := ih
    refine ⟨?_, ?_, ?_⟩
    · intro ts s c h
      cases ts with
      | nil => simp [parseExpression_nil] at h
      | cons t ts =>
        rw [parseExpression_cons] at h
        split at h
        · rename_i ht
          obtain ⟨d, hd, rfl⟩ := shift_eq_ok h
          rw [Nat.add_comm, List.take_succ_cons, List.map_cons, ht]
          exact Derives.expression (ihF _ _ _ hd)
        · simp at h
    · intro ts s c h
      cases ts with
      | nil => simp [parseFunctionCall_nil] at h
      | cons t ts =>
        rw [parseFunctionCall_cons] at h
        split at h
        · rename_i ht
          obtain ⟨a, c1, ha, hk⟩ := andThen_eq_ok h
          obtain ⟨d, hd, rfl⟩ := shift_eq_ok ha
          simp only [Option.some.injEq, Except.ok.injEq, Prod.mk.injEq] at hk
          obtain ⟨ks, hks, hmap⟩ := ihA _ _ _ _ hd
          rw [← hk.2, Nat.add_comm, List.take_succ_cons, List.map_cons, ht, hmap]
          exact Derives.functionCall hks
        · simp at h
    · intro ts args s c h
      cases ts with
      | nil => simp [parseArguments_nil] at h
      | cons t ts =>
        rcases hty : t.type with _ | _ | _ | _ | _ | _
        · rw [parseArguments_cons_other n ts args (Or.inl hty)] at h
          simp at h
        · rw [parseArguments_cons_simple n ts args (Or.inl hty)] at h
          obtain ⟨d, hd, rfl⟩ := shift_eq_ok h
          obtain ⟨ks, hks, hmap⟩ := ihA _ _ _ _ hd
          refine ⟨[.NUMBER] ++ ks, Derives.argumentsCons Derives.number hks, ?_⟩
          rw [Nat.add_comm, List.take_succ_cons, List.map_cons, hty, hmap]
          rfl
        · rw [parseArguments_cons_simple n ts args (Or.inr hty)] at h
          obtain ⟨d, hd, rfl⟩ := shift_eq_ok h
          obtain ⟨ks, hks, hmap⟩ := ihA _ _ _ _ hd
          refine ⟨[.OPERATOR] ++ ks, Derives.argumentsCons Derives.operator hks, ?_⟩
          rw [Nat.add_comm, List.take_succ_cons, List.map_cons, hty, hmap]
          rfl
        · rw [parseArguments_cons_nested n ts args hty] at h
          obtain ⟨nested, c1, hE, hk⟩ := andThen_eq_ok h
          have hc1 := ((parse_progress n).1 _ _ _ _ hE).2
          rw [parseArguments_at n _ c1 _ hc1] at hk
          obtain ⟨d, hd, rfl⟩ := shift_eq_ok hk
          obtain ⟨ks, hks, hmap⟩ := ihA _ _ _ _ hd
          refine ⟨_ ++ ks, Derives.argumentsCons (Derives.nested (ihE _ _ _ hE)) hks, ?_⟩
          rw [List.take_add, List.map_append, hmap, List.append_assoc]
        · rw [parseArguments_cons_close n ts args hty] at h
          simp only [Option.some.injEq, Except.ok.injEq, Prod.mk.injEq] at h
          refine ⟨[], Derives.argumentsNil, ?_⟩
          rw [← h.2]
          simp [hty]
        · rw [parseArguments_cons_other n ts args (Or.inr hty)] at h
          simp at h

theorem derives_of_parse_ok {tokens : List Token} {s : List Char} (hne : tokens ≠ [])
    (h : parse tokens = some (.ok s)) : Derives .expression (tokens.map Token.type) := by
  have := (parse_sound _).1 _ _ _ (parse_eq_ok hne h)
  rwa [List.take_length] at this

/-! ## Completeness: what is derivable is accepted -/

theorem derives_accepts {nt : Nonterminal} {ks : List TokenType} (h : Derives nt ks) :
    Accepts nt ks := by
  induction h with
  | @expression ks _ ih =>
    intro ts rest hmap
    cases ts with
    | nil => simp at hmap
    | cons t ts =>
      simp only [List.map_cons, List.cons.injEq] at hmap
      obtain ⟨n, s, hn⟩ := ih ts rest hmap.2
      refine ⟨n + 1, s, fun m hm => ?_⟩
      obtain ⟨m, rfl⟩ : ∃ k, m = k + 1 := ⟨m - 1, by omega⟩
      rw [List.cons_append, parseExpression_cons, if_pos hmap.1, hn m (by omega), shift_ok,
        List.length_cons, Nat.add_comm]
  | @functionCall ks _ ih =>
    intro ts rest hmap
    cases ts with
    | nil => simp at hmap
    | cons t ts =>
      simp only [List.map_cons, List.cons.injEq] at hmap
      obtain ⟨ta, tb, rfl, hta, htb⟩ := List.map_eq_append_iff.mp hmap.2
      obtain ⟨rp, rfl, hrp⟩ : ∃ rp, tb = [rp] ∧ rp.type = .RPAREN := by
        cases tb with
        | nil => simp at htb
        | cons rp tb =>
          cases tb with
          | nil => exact ⟨rp, rfl, by simpa using htb⟩
          | cons _ _ => simp at htb
      obtain ⟨n, s, hn⟩ := ih ta rp rest [] hta hrp
      refine ⟨n + 1, t.value ++ ['('] ++ s, fun m hm => ?_⟩
      obtain ⟨m, rfl⟩ : ∃ k, m = k + 1 := ⟨m - 1, by omega⟩
      rw [List.cons_append, parseFunctionCall_cons, if_pos hmap.1, List.append_assoc,
        List.singleton_append, hn m (by omega), shift_ok, andThen_ok]
      simp only [List.length_cons, List.length_append, List.length_nil]
      congr 3
      omega
  | argumentsNil =>
    intro ts rp rest args hmap hrp
    have : ts = [] := by simpa using hmap
    subst this
    refine ⟨1, args, fun m hm => ?_⟩
    obtain ⟨m, rfl⟩ : ∃ k, m = k + 1 := ⟨m - 1, by omega⟩
    rw [List.nil_append, parseArguments_cons_close m rest args hrp]
    rfl
  | @argumentsCons k ks _ _ ih1 ih2 =>
    intro ts rp rest args hmap hrp
    obtain ⟨ta, tb, rfl, hta, htb⟩ := List.map_eq_append_iff.mp hmap
    obtain ⟨n1, s1, hn1⟩ := ih1 ta (tb ++ rp :: rest) args hta
    obtain ⟨n2, s2, hn2⟩ := ih2 tb rp rest (withSeparator (tb ++ rp :: rest) 0 s1) htb hrp
    refine ⟨n1 + n2 + 1, s2, fun m hm => ?_⟩
    obtain ⟨m, rfl⟩ : ∃ k, m = k + 1 := ⟨m - 1, by omega⟩
    rw [List.append_assoc, hn1 m (by omega), hn2 m (by omega), shift_ok, List.length_append,
      Nat.add_assoc]
  | number =>
    intro ts rest args hmap
    obtain ⟨t, rfl, ht⟩ : ∃ t, ts = [t] ∧ t.type = .NUMBER := by
      cases ts with
      | nil => simp at hmap
      | cons t ts =>
        cases ts with
        | nil => exact ⟨t, rfl, by simpa using hmap⟩
        | cons _ _ => simp at hmap
    exact ⟨0, args ++ t.value, fun m _ => parseArguments_cons_simple m rest args (Or.inl ht)⟩
  | operator =>
    intro ts rest args hmap
    obtain ⟨t, rfl, ht⟩ : ∃ t, ts = [t] ∧ t.type = .OPERATOR := by
      cases ts with
      | nil => simp at hmap
      | cons t ts =>
        cases ts with
        | nil => exact ⟨t, rfl, by simpa using hmap⟩
        | cons _ _ => simp at hmap
    exact ⟨0, args ++ t.value, fun m _ => parseArguments_cons_simple m rest args (Or.inr ht)⟩
  | @nested ks hd ih =>
    intro ts rest args hmap
    obtain ⟨n, s, hn⟩ := ih ts rest hmap
    obtain ⟨t, ts1, rfl, ht⟩ : ∃ t ts1, ts = t :: ts1 ∧ t.type = .LPAREN := by
      cases hd with
      | expression _ =>
        cases ts with
        | nil => simp at hmap
        | cons t ts1 => exact ⟨t, ts1, rfl, by simpa using (List.cons.inj hmap).1⟩
    refine ⟨n, args ++ (['('] ++ s ++ [')']), fun m hm => ?_⟩
    rw [List.cons_append, parseArguments_cons_nested m _ args ht, ← List.cons_append,
      hn m hm, andThen_ok, parseArguments_append_right, withSeparator]
    congr 2
    have := peek_append_right (t :: ts1) rest 0
    rw [Nat.add_zero] at this
    rw [this]
    rfl

theorem parse_ok_of_derives {tokens : List Token}
    (h : Derives .expression (tokens.map Token.type)) : ∃ s, parse tokens = some (.ok s) := by
  obtain ⟨n, s, hn⟩ := derives_accepts h tokens [] rfl
  have hne : tokens ≠ [] := by
    rintro rfl
    cases h
  have h1 := hn n (Nat.le_refl n)
  rw [List.append_nil] at h1
  exact ⟨s, by rw [parse_of_ok hne h1, if_neg (Nat.lt_irrefl _)]⟩

/-! ## Where each error can come from -/

theorem parse_no_invalid_start (n : Nat) :
    (∀ tokens current, (peek tokens current).type = .LPAREN →
      parseExpression n tokens current ≠ some (.error .InvalidExpressionStart)) ∧
    (∀ tokens current,
      parseFunctionCall n tokens current ≠ some (.error .InvalidExpressionStart)) ∧
    (∀ tokens current args,
      parseArguments n tokens current args ≠ some (.error .InvalidExpressionStart)) := by
  induction n with
  | zero =>
    refine ⟨?_, ?_, ?_⟩ <;> intros <;>
      simp [parseExpression_zero, parseFunctionCall_zero, parseArguments_zero]
  | succ n ih =>
    obtain ⟨ihE, ihF, ihA⟩ := ih
    refine ⟨?_, ?_, ?_⟩
    · intro tokens current hp
      rw [parseExpression_succ, if_pos hp]
      exact ihF _ _
    · intro tokens current h
      rw [parseFunctionCall_succ] at h
      split at h
      · rcases andThen_eq_some h with ⟨e, he, hr⟩ | ⟨s, c, _, hk⟩
        · simp only [Except.error.injEq] at hr
          rw [← hr] at he
          exact ihA _ _ _ he
        · simp at hk
      · simp at h
    · intro tokens current args h
      rw [parseArguments_succ] at h
      split at h
      · simp at h
      · rcases andThen_eq_some h with ⟨e, he, hr⟩ | ⟨s, c, _, hk⟩
        · simp only [Except.error.injEq] at hr
          rw [← hr] at he
          unfold argumentStep at he
          split at he
          · simp at he
          · split at he
            · rename_i hp
              rcases andThen_eq_some he with ⟨e1, he1, hr1⟩ | ⟨s, c, _, hk⟩
              · simp only [Except.error.injEq] at hr1
                rw [← hr1] at he1
                exact ihE _ _ hp he1
              · simp at hk
            · simp at he
        · exact ihA _ _ _ hk

theorem derives_no_invalid {nt : Nonterminal} {ks : List TokenType} (h : Derives nt ks) :
    TokenType.INVALID ∉ ks := by
  induction h with
  | expression _ ih => simpa using ih
  | functionCall _ ih => simpa using ih
  | argumentsNil => simp
  | argumentsCons _ _ ih1 ih2 => simpa using ⟨ih1, ih2⟩
  | number => simp
  | operator => simp
  | nested _ ih => exact ih

/-- After any number of `NUMBER`/`OPERATOR` arguments, the loop of `parseArguments` stops
with an error at a `FUNCTION` or `INVALID` token and at the end of the tokens. -/
theorem parseArguments_simple_then_stop (as : List Token)
    (has : ∀ a ∈ as, a.type = .NUMBER ∨ a.type = .OPERATOR) (rest : List Token)
    (hrest : ∀ t ∈ rest.head?, t.type = .FUNCTION ∨ t.type = .INVALID) (n : Nat)
    (hn : as.length < n) (args : List Char) :
    parseArguments n (as ++ rest) 0 args = some (.error .UnexpectedTokenInArguments) := by
  induction as generalizing n args with
  | nil =>
    obtain ⟨n, rfl⟩ : ∃ k, n = k + 1 := ⟨n - 1, by simp at hn; omega⟩
    cases rest with
    | nil => exact parseArguments_nil n args
    | cons t rest => exact parseArguments_cons_other n rest args (hrest t rfl)
  | cons a as ih =>
    obtain ⟨n, rfl⟩ : ∃ k, n = k + 1 := ⟨n - 1, by simp at hn; omega⟩
    rw [List.cons_append, parseArguments_cons_simple n _ args (has a (List.mem_cons_self _ _)),
      ih (fun b hb => has b (List.mem_cons_of_mem _ hb)) n (by simpa using hn)]
    rfl

/-! ## The lexer -/

theorem isspace_of_numberCont {c : Char} (h : numberCont c = true) : isspace c = false := by
  simp only [numberCont, isdigit, isspace, Bool.or_eq_true, Bool.and_eq_true, decide_eq_true_eq,
    beq_iff_eq] at h
  simp only [isspace, Bool.or_eq_false_iff, Bool.and_eq_false_iff, beq_eq_false_iff_ne,
    decide_eq_false_iff_not]
  rcases h with h | h
  · omega
  · subst h
    decide

theorem isspace_of_isalnum {c : Char} (h : isalnum c = true) : isspace c = false := by
  simp only [isalnum, isalpha, isdigit, Bool.or_eq_true, Bool.and_eq_true, decide_eq_true_eq] at h
  simp only [isspace, Bool.or_eq_false_iff, Bool.and_eq_false_iff, beq_eq_false_iff_ne,
    decide_eq_false_iff_not]
  omega

/-- Characters read by an inner loop of the lexer are kept when whitespace is removed. -/
theorem filter_takeWhile_dropWhile (p : Char → Bool)
    (hp : ∀ c, p c = true → isspace c = false) (rest : List Char) :
    rest.filter (fun c => !isspace c) =
      rest.takeWhile p ++ (rest.dropWhile p).filter (fun c => !isspace c) := by
  conv_lhs => rw [← List.takeWhile_append_dropWhile p rest]
  rw [List.filter_append]
  congr 1
  rw [List.filter_eq_self]
  intro c hc
  rw [hp c (List.mem_takeWhile_imp hc)]
  rfl

theorem lexerLoop_lexemes (fuel : Nat) : ∀ input : List Char, input.length < fuel →
    ∃ tokens, lexerLoop fuel input = some tokens ∧
      (tokens.map Token.value).flatten = input.filter (fun c => !isspace c) := by
  induction fuel with
  | zero => intro input h; omega
  | succ fuel ih =>
    intro input hlen
    cases input with
    | nil => exact ⟨[], rfl, rfl⟩
    | cons ch rest =>
      have hrest : rest.length < fuel := by simpa using hlen
      rw [lexerLoop]
      split_ifs with h1 h2 h3 h4 h5 h6
      · obtain ⟨tokens, ht, hj⟩ := ih rest hrest
        exact ⟨tokens, ht, by simp [List.filter_cons, h1, hj]⟩
      · obtain ⟨tokens, ht, hj⟩ := ih rest hrest
        subst h2
        exact ⟨_, by rw [ht]; rfl, by
          simp [List.filter_cons, hj, show isspace '(' = false from by decide]⟩
      · obtain ⟨tokens, ht, hj⟩ := ih rest hrest
        subst h3
        exact ⟨_, by rw [ht]; rfl, by
          simp [List.filter_cons, hj, show isspace ')' = false from by decide]⟩
      · obtain ⟨tokens, ht, hj⟩ := ih (rest.dropWhile numberCont)
          (Nat.lt_of_le_of_lt (List.dropWhile_suffix _).length_le hrest)
        refine ⟨_, by rw [ht]; rfl, ?_⟩
        rw [List.filter_cons, filter_takeWhile_dropWhile numberCont
          (fun c => isspace_of_numberCont) rest]
        simp [h1, hj]
      · obtain ⟨tokens, ht, hj⟩ := ih rest hrest
        exact ⟨_, by rw [ht]; rfl, by simp [List.filter_cons, h1, hj]⟩
      · obtain ⟨tokens, ht, hj⟩ := ih (rest.dropWhile isalnum)
          (Nat.lt_of_le_of_lt (List.dropWhile_suffix _).length_le hrest)
        refine ⟨_, by rw [ht]; rfl, ?_⟩
        rw [List.filter_cons, filter_takeWhile_dropWhile isalnum
          (fun c => isspace_of_isalnum) rest]
        simp [h1, hj]
      · obtain ⟨tokens, ht, hj⟩ := ih rest hrest
        exact ⟨_, by rw [ht]; rfl, by simp [List.filter_cons, h1, hj]⟩

theorem lexerLoop_whitespace (fuel : Nat) : ∀ input : List Char, input.length < fuel →
    (∀ c ∈ input, isspace c = true) → lexerLoop fuel input = some [] := by
  induction fuel with
  | zero => intro input h; omega
  | succ fuel ih =>
    intro input hlen hws
    cases input with
    | nil => rfl
    | cons ch rest =>
      rw [lexerLoop, if_pos (hws ch (List.mem_cons_self _ _))]
      exact ih rest (by simpa using hlen) (fun c hc => hws c (List.mem_cons_of_mem _ hc))

/-! ## The grammar as the specification writes it -/

theorem specDerives_count {nt : Nonterminal} {ks : List TokenType} (h : SpecDerives nt ks) :
    ks.count .LPAREN + specParenDebt nt = 2 * ks.count .FUNCTION := by
  induction h with
  | expression _ ih =>
    simp only [specParenDebt, List.count_cons, beq_self_eq_true, if_true] at ih ⊢
    simp only [show (TokenType.LPAREN == TokenType.FUNCTION) = false from rfl] at ih ⊢
    simp only [Bool.false_eq_true, if_false] at ih ⊢
    omega
  | functionCall _ ih =>
    simp only [specParenDebt, List.count_cons, List.count_append, List.count_nil,
      beq_self_eq_true, if_true] at ih ⊢
    simp only [show (TokenType.FUNCTION == TokenType.LPAREN) = false from rfl,
      show (TokenType.RPAREN == TokenType.LPAREN) = false from rfl,
      show (TokenType.RPAREN == TokenType.FUNCTION) = false from rfl] at ih ⊢
    simp only [Bool.false_eq_true, if_false] at ih ⊢
    omega
  | argumentsNil => rfl
  | argumentsCons _ _ ih1 ih2 =>
    simp only [specParenDebt, List.count_append] at ih1 ih2 ⊢
    omega
  | number => rfl
  | operator => rfl
  | nested _ ih =>
    simp only [specParenDebt, List.count_cons, List.count_append, List.count_nil,
      beq_self_eq_true, if_true] at ih ⊢
    simp only [show (TokenType.LPAREN == TokenType.FUNCTION) = false from rfl,
      show (TokenType.RPAREN == TokenType.LPAREN) = false from rfl,
      show (TokenType.RPAREN == TokenType.FUNCTION) = false from rfl] at ih ⊢
    simp only [Bool.false_eq_true, if_false] at ih ⊢
    omega

/-! ## The lexer, without fuel -/

theorem lexerLoop_fuel (n : Nat) : ∀ (m : Nat) (input : List Char),
    input.length < n → input.length < m → lexerLoop n input = lexerLoop m input := by
  induction n with
  | zero => intro m input h; omega
  | succ n ih =>
    intro m input hn hm
    obtain ⟨m, rfl⟩ : ∃ k, m = k + 1 := ⟨m - 1, by omega⟩
    cases input with
    | nil => rfl
    | cons ch rest =>
      have h1 : rest.length < n := by simpa using hn
      have h2 : rest.length < m := by simpa using hm
      have hd : ∀ p : Char → Bool, lexerLoop n (rest.dropWhile p) = lexerLoop m (rest.dropWhile p) :=
        fun p => ih m _ (Nat.lt_of_le_of_lt (List.dropWhile_suffix _).length_le h1)
          (Nat.lt_of_le_of_lt (List.dropWhile_suffix _).length_le h2)
      rw [lexerLoop, lexerLoop, ih m rest h1 h2, hd, hd]

theorem lexer_nil : lexer [] = some [] := rfl

theorem lexer_cons (ch : Char) (rest : List Char) :
    lexer (ch :: rest) =
      if isspace ch then lexer rest
      else if ch = '(' then (lexer rest).map (fun tokens => ⟨.LPAREN, ['(']⟩ :: tokens)
      else if ch = ')' then (lexer rest).map (fun tokens => ⟨.RPAREN, [')']⟩ :: tokens)
      else if isdigit ch || ch = '-' then
        (lexer (rest.dropWhile numberCont)).map
          (fun tokens => ⟨.NUMBER, ch :: rest.takeWhile numberCont⟩ :: tokens)
      else if ch = '+' || ch = '-' || ch = '*' || ch = '/' then
        (lexer rest).map (fun tokens => ⟨.OPERATOR, [ch]⟩ :: tokens)
      else if isalpha ch then
        (lexer (rest.dropWhile isalnum)).map
          (fun tokens => ⟨.FUNCTION, ch :: rest.takeWhile isalnum⟩ :: tokens)
      else (lexer rest).map (fun tokens => ⟨.INVALID, [ch]⟩ :: tokens) := by
  have hd : ∀ p : Char → Bool,
      lexerLoop (rest.length + 1) (rest.dropWhile p) = lexer (rest.dropWhile p) :=
    fun p => lexerLoop_fuel _ _ _
      (Nat.lt_succ_of_le (List.dropWhile_suffix _).length_le) (Nat.lt_succ_self _)
  have hr : lexerLoop (rest.length + 1) rest = lexer rest := rfl
  unfold lexer
  rw [List.length_cons, lexerLoop]
  simp only [hd, hr]
  rfl

theorem lexer_total (input : List Char) : ∃ tokens, lexer input = some tokens := by
  obtain ⟨tokens, h, _⟩ := lexerLoop_lexemes _ input (Nat.lt_succ_self _)
  exact ⟨tokens, h⟩

theorem lexerLoop_wellFormed (fuel : Nat) : ∀ (input : List Char) (tokens : List Token),
    lexerLoop fuel input = some tokens → ∀ t ∈ tokens, t.WellFormed := by
  induction fuel with
  | zero => intro input tokens h; simp [lexerLoop] at h
  | succ fuel ih =>
    intro input tokens h
    cases input with
    | nil =>
      simp only [lexerLoop, Option.some.injEq] at h
      subst h
      simp
    | cons ch rest =>
      rw [lexerLoop] at h
      split_ifs at h with h1 h2 h3 h4 h5 h6
      · exact ih _ _ h
      all_goals
        obtain ⟨ts, hts, rfl⟩ := Option.map_eq_some'.mp h
        intro t ht
        rcases List.mem_cons.mp ht with rfl | ht
        on_goal 2 => exact ih _ _ hts t ht
      · rfl
      · rfl
      · refine ⟨ch, _, rfl, by simpa using h4, fun x hx => List.mem_takeWhile_imp hx⟩
      · have hm : ch ≠ '-' := fun hc => h4 (by simp [hc])
        simp only [Bool.or_eq_true, decide_eq_true_eq] at h5
        show _ ∨ _ ∨ _
        rcases h5 with ((h | h) | h) | h
        · subst h; exact Or.inl rfl
        · exact absurd h hm
        · subst h; exact Or.inr (Or.inl rfl)
        · subst h; exact Or.inr (Or.inr rfl)
      · exact ⟨ch, _, rfl, h6, fun x hx => List.mem_takeWhile_imp hx⟩
      · simp only [Bool.or_eq_true, decide_eq_true_eq, not_or] at h4 h5
        exact ⟨ch, rfl, by simpa using h1, h2, h3, by simpa using h4.1, by simpa using h6,
          h4.2, h5.1.1.1, h5.1.2, h5.2⟩

theorem lexer_wellFormed {input : List Char} {tokens : List Token}
    (h : lexer input = some tokens) : ∀ t ∈ tokens, t.WellFormed :=
  lexerLoop_wellFormed _ input tokens h

theorem takeWhile_append_stop (p : Char → Bool) {w : Char} (hw : p w = false)
    (l r : List Char) : (l ++ w :: r).takeWhile p = l.takeWhile p := by
  induction l with
  | nil => simp [List.takeWhile_cons, hw]
  | cons a l ih =>
    rw [List.cons_append, List.takeWhile_cons, List.takeWhile_cons, ih]

theorem dropWhile_append_stop (p : Char → Bool) {w : Char} (hw : p w = false)
    (l r : List Char) : (l ++ w :: r).dropWhile p = l.dropWhile p ++ w :: r := by
  induction l with
  | nil => simp [List.dropWhile_cons, hw]
  | cons a l ih =>
    rw [List.cons_append, List.dropWhile_cons, List.dropWhile_cons, ih]
    split <;> rfl

theorem numberCont_of_isspace {w : Char} (hw : isspace w = true) : numberCont w = false := by
  cases h : numberCont w
  · rfl
  · rw [isspace_of_numberCont h] at hw
    exact absurd hw (by decide)

theorem isalnum_of_isspace {w : Char} (hw : isspace w = true) : isalnum w = false := by
  cases h : isalnum w
  · rfl
  · rw [isspace_of_isalnum h] at hw
    exact absurd hw (by decide)

theorem map_cons_bind_append (t : Token) (o1 o2 : Option (List Token)) :
    (o1.map (fun tokens => t :: tokens)).bind (fun a => o2.map (fun b => a ++ b)) =
      (o1.bind (fun a => o2.map (fun b => a ++ b))).map (fun tokens => t :: tokens) := by
  cases o1 <;> cases o2 <;> rfl

/-- The tokens of two inputs, one after the other. -/
theorem lexer_append_whitespace {w : Char} (hw : isspace w = true) (s2 : List Char) (n : Nat) :
    ∀ s1 : List Char, s1.length ≤ n →
      lexer (s1 ++ w :: s2) = (lexer s1).bind (fun a => (lexer s2).map (fun b => a ++ b)) := by
  induction n with
  | zero =>
    intro s1 h
    have : s1 = [] := List.length_eq_zero.mp (Nat.le_zero.mp h)
    subst this
    rw [List.nil_append, lexer_cons, if_pos hw, lexer_nil]
    cases lexer s2 <;> simp
  | succ n ih =>
    intro s1 h
    cases s1 with
    | nil =>
      rw [List.nil_append, lexer_cons, if_pos hw, lexer_nil]
      cases lexer s2 <;> simp
    | cons ch rest =>
      have hrest : rest.length ≤ n := by simpa using h
      have hd : ∀ p : Char → Bool, (rest.dropWhile p).length ≤ n :=
        fun p => Nat.le_trans (List.dropWhile_suffix _).length_le hrest
      rw [List.cons_append, lexer_cons, lexer_cons ch rest,
        takeWhile_append_stop numberCont (numberCont_of_isspace hw),
        dropWhile_append_stop numberCont (numberCont_of_isspace hw),
        takeWhile_append_stop isalnum (isalnum_of_isspace hw),
        dropWhile_append_stop isalnum (isalnum_of_isspace hw),
        ih rest hrest, ih _ (hd numberCont), ih _ (hd isalnum)]
      split_ifs
      · rfl
      all_goals exact (map_cons_bind_append _ _ _).symm

theorem lexer_number {c : Char} {rest : List Char} (hc : isdigit c = true ∨ c = '-')
    (hrest : ∀ x ∈ rest, numberCont x = true) :
    lexer (c :: rest) = some [⟨.NUMBER, c :: rest⟩] := by
  have h1 : isspace c = false := by
    rcases hc with h | h
    · exact isspace_of_numberCont (by simp [numberCont, h])
    · subst h; decide
  have h2 : c ≠ '(' := by
    rintro rfl
    rcases hc with h | h
    · exact absurd h (by decide)
    · exact absurd h (by decide)
  have h3 : c ≠ ')' := by
    rintro rfl
    rcases hc with h | h
    · exact absurd h (by decide)
    · exact absurd h (by decide)
  have h4 : (isdigit c || decide (c = '-')) = true := by
    rcases hc with h | h
    · simp [h]
    · simp [h]
  have ht : rest.takeWhile numberCont = rest := List.takeWhile_eq_self_iff.mpr hrest
  have hd : rest.dropWhile numberCont = [] := List.dropWhile_eq_nil_iff.mpr hrest
  rw [lexer_cons, if_neg (by simp [h1]), if_neg h2, if_neg h3, if_pos h4, ht, hd, lexer_nil]
  rfl

theorem isalnum_minus : isalnum '-' = false := by decide

theorem numberCont_minus : numberCont '-' = false := by decide

/-- In a token of the lexer, a `-` can only be the first character of a `NUMBER`. -/
theorem minus_mem_of_wellFormed {t : Token} (h : t.WellFormed) (hm : '-' ∈ t.value) :
    t.type = .NUMBER ∧ ∃ rest, t.value = '-' :: rest ∧ '-' ∉ rest := by
  unfold Token.WellFormed at h
  split at h
  · obtain ⟨c, rest, hv, hc, hrest⟩ := h
    rw [hv] at hm
    rcases List.mem_cons.mp hm with h1 | h1
    · rw [← h1] at hc; exact absurd hc (by decide)
    · have := hrest _ h1
      rw [isalnum_minus] at this
      exact absurd this (by decide)
  · rename_i hty
    obtain ⟨c, rest, hv, hc, hrest⟩ := h
    have hnot : '-' ∉ rest := fun h1 => by
      have := hrest _ h1
      rw [numberCont_minus] at this
      exact absurd this (by decide)
    rw [hv] at hm
    rcases List.mem_cons.mp hm with h1 | h1
    · exact ⟨hty, rest, by rw [hv, ← h1], hnot⟩
    · exact absurd h1 hnot
  · rcases h with h | h | h <;> rw [h] at hm <;> simp at hm
  · rw [h] at hm; simp at hm
  · rw [h] at hm; simp at hm
  · obtain ⟨c, hv, _, _, _, _, _, hc, _⟩ := h
    rw [hv] at hm
    exact absurd (List.mem_singleton.mp hm).symm hc

theorem operator_of_wellFormed {t : Token} (h : t.WellFormed) (hty : t.type = .OPERATOR) :
    t.value = ['+'] ∨ t.value = ['*'] ∨ t.value = ['/'] := by
  unfold Token.WellFormed at h
  rw [hty] at h
  exact h

/-- The number of `-` in the lexemes of well-formed tokens is the number of `NUMBER` tokens
that start with `-`. -/
theorem count_minus_of_wellFormed (tokens : List Token) (h : ∀ t ∈ tokens, t.WellFormed) :
    (tokens.map Token.value).flatten.count '-' =
      tokens.countP (fun t => decide (t.type = .NUMBER ∧ t.value.head? = some '-')) := by
  induction tokens with
  | nil => rfl
  | cons t ts ih =>
    have ht := h t (List.mem_cons_self _ _)
    rw [List.map_cons, List.flatten_cons, List.count_append,
      ih (fun u hu => h u (List.mem_cons_of_mem _ hu)), List.countP_cons]
    by_cases hm : '-' ∈ t.value
    · obtain ⟨hty, rest, hv, hrest⟩ := minus_mem_of_wellFormed ht hm
      have h1 : t.value.count '-' = 1 := by
        rw [hv, List.count_cons_self, List.count_eq_zero_of_not_mem hrest]
      have h2 : decide (t.type = .NUMBER ∧ t.value.head? = some '-') = true := by
        simp [hty, hv]
      rw [h1, h2]
      simp only [if_true]
      omega
    · have h1 : t.value.count '-' = 0 := List.count_eq_zero_of_not_mem hm
      have h2 : decide (t.type = .NUMBER ∧ t.value.head? = some '-') = false := by
        rw [decide_eq_false_iff_not]
        rintro ⟨_, hh⟩
        exact hm (List.mem_of_mem_head? hh)
      rw [h1, h2]
      simp

theorem count_minus_filter (input : List Char) :
    (input.filter (fun c => !isspace c)).count '-' = input.count '-' :=
  List.count_filter (by decide)

/-! ## Complete s-expressions and the grammar of the parser -/

theorem derives_of_isPart {p : Part} {ts : List Token} (h : IsPart p ts) :
    Derives (match p with | .sExpression => .expression | .argumentList => .arguments)
      (ts.map Token.type) := by
  induction h with
  | @sExpression lp f rp as hlp hf hrp _ ih =>
    simp only [List.cons_append, List.nil_append, List.map_cons, List.map_append, List.map_nil,
      hlp, hf, hrp]
    exact Derives.expression (Derives.functionCall ih)
  | empty => exact Derives.argumentsNil
  | @number t as ht _ ih =>
    have := Derives.argumentsCons Derives.number ih
    simpa [ht] using this
  | @operator t as ht _ ih =>
    have := Derives.argumentsCons Derives.operator ih
    simpa [ht] using this
  | nested _ _ ih1 ih2 =>
    rw [List.map_append]
    exact Derives.argumentsCons (Derives.nested ih1) ih2

theorem partOf_of_derives {nt : Nonterminal} {ks : List TokenType} (h : Derives nt ks) :
    PartOf nt ks := by
  induction h with
  | @expression ks _ ih =>
    intro ts hmap
    cases ts with
    | nil => simp at hmap
    | cons lp ts =>
      simp only [List.map_cons, List.cons.injEq] at hmap
      exact ih ts lp hmap.2 hmap.1
  | @functionCall ks _ ih =>
    intro ts lp hmap hlp
    cases ts with
    | nil => simp at hmap
    | cons f ts =>
      simp only [List.map_cons, List.cons.injEq] at hmap
      obtain ⟨ta, tb, rfl, hta, htb⟩ := List.map_eq_append_iff.mp hmap.2
      obtain ⟨rp, rfl, hrp⟩ : ∃ rp, tb = [rp] ∧ rp.type = .RPAREN := by
        cases tb with
        | nil => simp at htb
        | cons rp tb =>
          cases tb with
          | nil => exact ⟨rp, rfl, by simpa using htb⟩
          | cons _ _ => simp at htb
      exact IsPart.sExpression hlp hmap.1 hrp (ih ta hta)
  | argumentsNil =>
    intro ts hmap
    have : ts = [] := by simpa using hmap
    subst this
    exact IsPart.empty
  | @argumentsCons k ks _ _ ih1 ih2 =>
    intro ts hmap
    obtain ⟨ta, tb, rfl, hta, htb⟩ := List.map_eq_append_iff.mp hmap
    exact ih1 ta tb hta (ih2 tb htb)
  | number =>
    intro ts as hmap has
    cases ts with
    | nil => simp at hmap
    | cons t ts =>
      cases ts with
      | nil => exact IsPart.number (by simpa using hmap) has
      | cons _ _ => simp at hmap
  | operator =>
    intro ts as hmap has
    cases ts with
    | nil => simp at hmap
    | cons t ts =>
      cases ts with
      | nil => exact IsPart.operator (by simpa using hmap) has
      | cons _ _ => simp at hmap
  | nested _ ih =>
    intro ts as hmap has
    exact IsPart.nested (ih ts hmap) has

/-! ## One iteration of the argument loop -/

theorem convertLispToC_total (input : List Char) : ∃ r, convertLispToC input = some r := by
  obtain ⟨tokens, h⟩ := lexer_total input
  have hc : convertLispToC input = parse tokens := by rw [convertLispToC, h]
  rcases hr : parse tokens with _ | r
  · exact absurd hr (parse_ne_none tokens)
  · exact ⟨r, by rw [hc, hr]⟩

/-! ## The emitted text -/

theorem withSeparator_cons_start {t : Token} (ts : List Token) (args : List Char)
    (ht : t.type = .NUMBER ∨ t.type = .OPERATOR ∨ t.type = .LPAREN) :
    withSeparator (t :: ts) 0 args = args ++ [',', ' '] := by
  unfold withSeparator
  rw [peek_cons_zero, if_pos ht]

theorem withSeparator_cons_close {t : Token} (ts : List Token) (args : List Char)
    (ht : t.type = .RPAREN) : withSeparator (t :: ts) 0 args = args := by
  unfold withSeparator
  rw [peek_cons_zero, if_neg (by rw [ht]; decide)]

theorem emits_expression_head {ts : List Token} {xs : List (List Char)}
    (h : Emits .expression ts xs) : ∃ t ts1, ts = t :: ts1 ∧ t.type = .LPAREN := by
  cases h with
  | expression hlp _ => exact ⟨_, _, rfl, hlp⟩

theorem emits_argument_head {ts : List Token} {xs : List (List Char)}
    (h : Emits .argument ts xs) :
    ∃ t ts1, ts = t :: ts1 ∧ (t.type = .NUMBER ∨ t.type = .OPERATOR ∨ t.type = .LPAREN) := by
  cases h with
  | number ht => exact ⟨_, _, rfl, Or.inl ht⟩
  | operator ht => exact ⟨_, _, rfl, Or.inr (Or.inl ht)⟩
  | nested he =>
    obtain ⟨t, ts1, rfl, ht⟩ := emits_expression_head he
    exact ⟨t, ts1, rfl, Or.inr (Or.inr ht)⟩

theorem emits_arguments_head {ts : List Token} {xs : List (List Char)}
    (h : Emits .arguments ts xs) :
    (ts = [] ∧ xs = []) ∨
    (xs ≠ [] ∧ ∃ t ts1, ts = t :: ts1 ∧
      (t.type = .NUMBER ∨ t.type = .OPERATOR ∨ t.type = .LPAREN)) := by
  cases h with
  | argumentsNil => exact Or.inl ⟨rfl, rfl⟩
  | argumentsCons ha _ =>
    obtain ⟨t, ts1, rfl, ht⟩ := emits_argument_head ha
    exact Or.inr ⟨List.cons_ne_nil _ _, t, _, rfl, ht⟩

theorem joinArgs_cons_of_ne_nil (x : List Char) {xs : List (List Char)} (h : xs ≠ []) :
    joinArgs (x :: xs) = x ++ [',', ' '] ++ joinArgs xs := by
  cases xs with
  | nil => exact absurd rfl h
  | cons y ys => rfl

theorem emits_returns {nt : Nonterminal} {ts : List Token} {xs : List (List Char)}
    (h : Emits nt ts xs) : Returns nt ts xs := by
  induction h with
  | @expression lp ts xs hlp _ ih =>
    intro rest
    obtain ⟨n, hn⟩ := ih rest
    refine ⟨n + 1, fun m hm => ?_⟩
    obtain ⟨m, rfl⟩ : ∃ k, m = k + 1 := ⟨m - 1, by omega⟩
    rw [List.cons_append, parseExpression_cons, if_pos hlp, hn m (by omega), shift_ok,
      List.length_cons, Nat.add_comm]
  | @functionCall f rp as xs hf hrp _ ih =>
    intro rest
    obtain ⟨n, hn⟩ := ih rp rest [] hrp
    refine ⟨n + 1, fun m hm => ?_⟩
    obtain ⟨m, rfl⟩ : ∃ k, m = k + 1 := ⟨m - 1, by omega⟩
    rw [List.cons_append, parseFunctionCall_cons, if_pos hf, List.append_assoc,
      List.singleton_append, hn m (by omega), shift_ok, andThen_ok]
    simp only [List.length_cons, List.length_append, List.length_nil, List.flatten_cons,
      List.flatten_nil, List.append_nil, List.nil_append]
    congr 3
    omega
  | argumentsNil =>
    intro rp rest args hrp
    refine ⟨1, fun m hm => ?_⟩
    obtain ⟨m, rfl⟩ : ∃ k, m = k + 1 := ⟨m - 1, by omega⟩
    rw [List.nil_append, parseArguments_cons_close m rest args hrp]
    simp [joinArgs]
  | @argumentsCons a as x xs _ has ih1 ih2 =>
    intro rp rest args hrp
    obtain ⟨n1, hn1⟩ := ih1 (as ++ rp :: rest) args
    simp only [List.flatten_cons, List.flatten_nil, List.append_nil] at hn1
    rcases emits_arguments_head has with ⟨rfl, rfl⟩ | ⟨hxs, t, ts1, rfl, ht⟩
    · obtain ⟨n2, hn2⟩ := ih2 rp rest (args ++ x) hrp
      refine ⟨n1 + n2 + 1, fun m hm => ?_⟩
      obtain ⟨m, rfl⟩ : ∃ k, m = k + 1 := ⟨m - 1, by omega⟩
      rw [List.append_assoc, hn1 m (by omega), List.nil_append,
        withSeparator_cons_close rest _ hrp]
      have := hn2 m (by omega)
      rw [List.nil_append] at this
      rw [this, shift_ok]
      simp [joinArgs]
    · obtain ⟨n2, hn2⟩ := ih2 rp rest (args ++ x ++ [',', ' ']) hrp
      refine ⟨n1 + n2 + 1, fun m hm => ?_⟩
      obtain ⟨m, rfl⟩ : ∃ k, m = k + 1 := ⟨m - 1, by omega⟩
      rw [List.append_assoc, hn1 m (by omega), List.cons_append,
        withSeparator_cons_start _ _ ht, ← List.cons_append, hn2 m (by omega), shift_ok,
        joinArgs_cons_of_ne_nil x hxs]
      simp only [List.length_append, List.append_assoc]
      congr 3
  | @number t ht =>
    intro rest args
    exact ⟨0, fun m _ => by
      rw [List.singleton_append, parseArguments_cons_simple m rest args (Or.inl ht)]
      simp⟩
  | @operator t ht =>
    intro rest args
    exact ⟨0, fun m _ => by
      rw [List.singleton_append, parseArguments_cons_simple m rest args (Or.inr ht)]
      simp⟩
  | @nested ts s he ih =>
    intro rest args
    obtain ⟨n, hn⟩ := ih rest
    obtain ⟨t, ts1, rfl, ht⟩ := emits_expression_head he
    refine ⟨n, fun m hm => ?_⟩
    rw [List.cons_append, parseArguments_cons_nested m _ args ht, ← List.cons_append,
      hn m hm, andThen_ok, parseArguments_append_right, withSeparator]
    congr 2
    have := peek_append_right (t :: ts1) rest 0
    rw [Nat.add_zero] at this
    rw [this]
    simp [withSeparator]

theorem emits_of_derives {nt : Nonterminal} {ks : List TokenType} (h : Derives nt ks) :
    ∀ ts : List Token, ts.map Token.type = ks →
      ∃ xs, Emits nt ts xs ∧ (nt ≠ .arguments → ∃ s, xs = [s]) := by
  induction h with
  | @expression ks _ ih =>
    intro ts hmap
    cases ts with
    | nil => simp at hmap
    | cons lp ts =>
      simp only [List.map_cons, List.cons.injEq] at hmap
      obtain ⟨xs, hxs, hs⟩ := ih ts hmap.2
      exact ⟨xs, Emits.expression hmap.1 hxs, fun _ => hs (by decide)⟩
  | @functionCall ks _ ih =>
    intro ts hmap
    cases ts with
    | nil => simp at hmap
    | cons f ts =>
      simp only [List.map_cons, List.cons.injEq] at hmap
      obtain ⟨ta, tb, rfl, hta, htb⟩ := List.map_eq_append_iff.mp hmap.2
      obtain ⟨rp, rfl, hrp⟩ : ∃ rp, tb = [rp] ∧ rp.type = .RPAREN := by
        cases tb with
        | nil => simp at htb
        | cons rp tb =>
          cases tb with
          | nil => exact ⟨rp, rfl, by simpa using htb⟩
          | cons _ _ => simp at htb
      obtain ⟨xs, hxs, _⟩ := ih ta hta
      exact ⟨_, Emits.functionCall hmap.1 hrp hxs, fun _ => ⟨_, rfl⟩⟩
  | argumentsNil =>
    intro ts hmap
    have : ts = [] := by simpa using hmap
    subst this
    exact ⟨[], Emits.argumentsNil, fun h => absurd rfl h⟩
  | @argumentsCons k ks _ _ ih1 ih2 =>
    intro ts hmap
    obtain ⟨ta, tb, rfl, hta, htb⟩ := List.map_eq_append_iff.mp hmap
    obtain ⟨xa, hxa, hs⟩ := ih1 ta hta
    obtain ⟨s, rfl⟩ := hs (by decide)
    obtain ⟨xb, hxb, _⟩ := ih2 tb htb
    exact ⟨s :: xb, Emits.argumentsCons hxa hxb, fun h => absurd rfl h⟩
  | number =>
    intro ts hmap
    cases ts with
    | nil => simp at hmap
    | cons t ts =>
      cases ts with
      | nil => exact ⟨_, Emits.number (by simpa using hmap), fun _ => ⟨_, rfl⟩⟩
      | cons _ _ => simp at hmap
  | operator =>
    intro ts hmap
    cases ts with
    | nil => simp at hmap
    | cons t ts =>
      cases ts with
      | nil => exact ⟨_, Emits.operator (by simpa using hmap), fun _ => ⟨_, rfl⟩⟩
      | cons _ _ => simp at hmap
  | nested _ ih =>
    intro ts hmap
    obtain ⟨xs, hxs, hs⟩ := ih ts hmap
    obtain ⟨s, rfl⟩ := hs (by decide)
    exact ⟨_, Emits.nested hxs, fun _ => ⟨_, rfl⟩⟩

/-- The string that `parse` returns is the text emitted for the tokens. -/
theorem emits_of_parse_ok {tokens : List Token} {out : List Char} (hne : tokens ≠ [])
    (h : parse tokens = some (.ok out)) : Emits .expression tokens [out] := by
  obtain ⟨xs, hxs, hs⟩ := emits_of_derives (derives_of_parse_ok hne h) tokens rfl
  obtain ⟨s, rfl⟩ := hs (by decide)
  obtain ⟨n, hn⟩ := emits_returns hxs []
  have h1 := hn n (Nat.le_refl n)
  rw [List.append_nil] at h1
  have h2 := parse_of_ok hne h1
  rw [if_neg (Nat.lt_irrefl _), h] at h2
  simp only [Option.some.injEq, Except.ok.injEq, List.flatten_cons, List.flatten_nil,
    List.append_nil] at h2
  rw [h2]
  exact hxs

theorem parse_ok_of_emits {tokens : List Token} {out : List Char}
    (h : Emits .expression tokens [out]) : parse tokens = some (.ok out) := by
  obtain ⟨n, hn⟩ := emits_returns h []
  have h1 := hn n (Nat.le_refl n)
  rw [List.append_nil] at h1
  obtain ⟨t, ts1, rfl, _⟩ := emits_expression_head h
  rw [parse_of_ok (List.cons_ne_nil _ _) h1, if_neg (Nat.lt_irrefl _)]
  simp

/-! ## Lexemes have none of the characters that the parser adds -/

theorem isLexemeChar_of_isdigit {c : Char} (h : isdigit c = true) : isLexemeChar c = true := by
  unfold isLexemeChar
  simp only [Bool.not_eq_true', Bool.or_eq_false_iff, beq_eq_false_iff_ne]
  refine ⟨⟨⟨?_, ?_⟩, ?_⟩, ?_⟩ <;> rintro rfl <;> exact absurd h (by decide)

theorem isLexemeChar_of_isalpha {c : Char} (h : isalpha c = true) : isLexemeChar c = true := by
  unfold isLexemeChar
  simp only [Bool.not_eq_true', Bool.or_eq_false_iff, beq_eq_false_iff_ne]
  refine ⟨⟨⟨?_, ?_⟩, ?_⟩, ?_⟩ <;> rintro rfl <;> exact absurd h (by decide)

theorem isLexemeChar_of_isalnum {c : Char} (h : isalnum c = true) : isLexemeChar c = true := by
  unfold isalnum at h
  rcases Bool.or_eq_true_iff.mp h with h | h
  · exact isLexemeChar_of_isalpha h
  · exact isLexemeChar_of_isdigit h

theorem isLexemeChar_of_numberCont {c : Char} (h : numberCont c = true) :
    isLexemeChar c = true := by
  unfold numberCont at h
  rcases Bool.or_eq_true_iff.mp h with h | h
  · exact isLexemeChar_of_isdigit h
  · have : c = '.' := by simpa using h
    subst this
    decide

/-- The lexeme of a well-formed `FUNCTION`, `NUMBER` or `OPERATOR` token is not empty and has
no parenthesis, comma or space. -/
theorem lexeme_of_wellFormed {t : Token} (h : t.WellFormed)
    (hty : t.type = .FUNCTION ∨ t.type = .NUMBER ∨ t.type = .OPERATOR) :
    t.value ≠ [] ∧ ∀ c ∈ t.value, isLexemeChar c = true := by
  unfold Token.WellFormed at h
  split at h <;> rename_i hk
  · obtain ⟨c, rest, hv, hc, hrest⟩ := h
    rw [hv]
    refine ⟨List.cons_ne_nil _ _, fun x hx => ?_⟩
    rcases List.mem_cons.mp hx with rfl | hx
    · exact isLexemeChar_of_isalpha hc
    · exact isLexemeChar_of_isalnum (hrest x hx)
  · obtain ⟨c, rest, hv, hc, hrest⟩ := h
    rw [hv]
    refine ⟨List.cons_ne_nil _ _, fun x hx => ?_⟩
    rcases List.mem_cons.mp hx with rfl | hx
    · rcases hc with hc | rfl
      · exact isLexemeChar_of_isdigit hc
      · decide
    · exact isLexemeChar_of_numberCont (hrest x hx)
  · rcases h with h | h | h <;> rw [h] <;> exact ⟨List.cons_ne_nil _ _, by decide⟩
  · rw [hk] at hty; simp at hty
  · rw [hk] at hty; simp at hty
  · rw [hk] at hty; simp at hty

theorem filter_isLexemeChar_joinArgs (xs : List (List Char)) :
    (joinArgs xs).filter isLexemeChar = (xs.map (List.filter isLexemeChar)).flatten := by
  induction xs with
  | nil => rfl
  | cons x xs ih =>
    cases xs with
    | nil => simp [joinArgs]
    | cons y ys =>
      rw [joinArgs, List.filter_append, List.filter_append, ih]
      simp [isLexemeChar]

/-- With `(`, `)`, `,` and spaces deleted, the emitted texts are the lexemes of the tokens
other than parentheses, in order. -/
theorem emits_contribution {nt : Nonterminal} {ts : List Token} {xs : List (List Char)}
    (h : Emits nt ts xs) :
    (xs.map (List.filter isLexemeChar)).flatten = (ts.map contribution).flatten := by
  induction h with
  | @expression lp ts xs hlp _ ih =>
    rw [List.map_cons, List.flatten_cons, ← ih]
    simp [contribution, hlp]
  | @functionCall f rp as xs hf hrp _ ih =>
    simp only [List.map_cons, List.map_nil, List.flatten_cons, List.flatten_nil,
      List.append_nil, List.filter_append, List.map_append, List.flatten_append,
      filter_isLexemeChar_joinArgs, ih]
    simp [contribution, hf, hrp, isLexemeChar]
  | argumentsNil => rfl
  | argumentsCons _ _ ih1 ih2 =>
    simp only [List.map_cons, List.map_nil, List.flatten_cons, List.flatten_nil,
      List.append_nil] at ih1
    rw [List.map_cons, List.flatten_cons, List.map_append, List.flatten_append, ih1, ih2]
  | @number t ht => simp [contribution, ht]
  | @operator t ht => simp [contribution, ht]
  | nested _ ih =>
    simp only [List.map_cons, List.map_nil, List.flatten_cons, List.flatten_nil,
      List.append_nil] at ih
    simp only [List.map_cons, List.map_nil, List.flatten_cons, List.flatten_nil,
      List.append_nil, List.filter_append, ih]
    simp [isLexemeChar]

/-- For a well-formed token other than `INVALID`, deleting the parentheses from the lexeme
leaves what the token gives to the emitted text. -/
theorem contribution_of_wellFormed {t : Token} (h : t.WellFormed) (hty : t.type ≠ .INVALID) :
    contribution t = t.value.filter (fun c => !(c == '(' || c == ')')) := by
  unfold contribution
  rcases hk : t.type with _ | _ | _ | _ | _ | _
  all_goals first
    | exact absurd hk hty
    | (have hw := h
       unfold Token.WellFormed at hw
       rw [hk] at hw
       simp only [reduceCtorEq, or_false, or_true, false_or, if_true, hw]
       rfl)
    | (obtain ⟨_, hall⟩ := lexeme_of_wellFormed h (by simp [hk])
       simp only [reduceCtorEq, or_self, if_false]
       rw [List.filter_eq_self.mpr hall, eq_comm, List.filter_eq_self]
       intro c hc
       have := hall c hc
       unfold isLexemeChar at this
       simp only [Bool.not_eq_true', Bool.or_eq_false_iff] at this
       simp [this.1.1])

theorem filter_flatten_map (p : Char → Bool) (L : List (List Char)) :
    L.flatten.filter p = (L.map (List.filter p)).flatten := by
  induction L with
  | nil => rfl
  | cons x xs ih => rw [List.flatten_cons, List.filter_append, ih, List.map_cons,
      List.flatten_cons]

/-- With the added characters deleted, the output of a successful conversion is the input
without whitespace and parentheses. -/
theorem convert_preserves_operands {input out : List Char}
    (h : convertLispToC input = some (.ok out)) :
    out.filter isLexemeChar = input.filter isOperandChar := by
  obtain ⟨tokens, hl, hj⟩ := lexerLoop_lexemes _ input (Nat.lt_succ_self _)
  have hl : lexer input = some tokens := hl
  have hp : parse tokens = some (.ok out) := by
    rw [convertLispToC, hl] at h
    exact h
  have hin : input.filter isOperandChar =
      ((tokens.map Token.value).flatten).filter (fun c => !(c == '(' || c == ')')) := by
    rw [hj, List.filter_filter]
    congr 1
    funext c
    simp only [isOperandChar, Bool.and_comm]
  rw [hin, filter_flatten_map, List.map_map]
  by_cases hne : tokens = []
  · subst hne
    rw [parse_nil] at hp
    simp only [Option.some.injEq, Except.ok.injEq] at hp
    rw [← hp]
    rfl
  · have hd := derives_of_parse_ok hne hp
    have he := emits_contribution (emits_of_parse_ok hne hp)
    simp only [List.map_cons, List.map_nil, List.flatten_cons, List.flatten_nil,
      List.append_nil] at he
    rw [he]
    congr 1
    apply List.map_congr_left
    intro t ht
    have hty : t.type ≠ .INVALID := fun hc =>
      derives_no_invalid hd (by rw [← hc]; exact List.mem_map_of_mem _ ht)
    exact contribution_of_wellFormed (lexer_wellFormed hl t ht) hty

/-! ## No misplaced separator in the emitted text -/

theorem ne_of_isLexemeChar {c : Char} (h : isLexemeChar c = true) :
    c ≠ '(' ∧ c ≠ ')' ∧ c ≠ ',' ∧ c ≠ ' ' := by
  unfold isLexemeChar at h
  simp only [Bool.not_eq_true', Bool.or_eq_false_iff, beq_eq_false_iff_ne] at h
  exact ⟨h.1.1.1, h.1.1.2, h.1.2, h.2⟩

theorem chain_of_forall_left {l : List Char} (h : ∀ a ∈ l, ∀ b, sepOK a b) :
    List.Chain' sepOK l := by
  induction l with
  | nil => exact List.chain'_nil
  | cons a l ih =>
    cases l with
    | nil => exact List.chain'_singleton a
    | cons b l =>
      exact List.chain'_cons.mpr ⟨h a (List.mem_cons_self _ _) b,
        ih (fun x hx => h x (List.mem_cons_of_mem _ hx))⟩

theorem tidy_of_lexeme {v : List Char} (h : ∀ c ∈ v, isLexemeChar c = true) :
    Tidy v ∧ ∀ c ∈ v.getLast?, c ≠ '(' := by
  refine ⟨⟨chain_of_forall_left fun a ha b => ?_, fun c hc => ?_, fun c hc => ?_⟩,
    fun c hc => ?_⟩
  · have := ne_of_isLexemeChar (h a ha)
    exact ⟨fun hh => this.2.2.2 hh.1, fun hh => this.1 hh.1⟩
  · have := ne_of_isLexemeChar (h c (List.mem_of_mem_head? hc))
    exact ⟨this.2.2.1, this.2.1⟩
  · exact (ne_of_isLexemeChar (h c (List.mem_of_mem_getLast? hc))).2.2.2
  · exact (ne_of_isLexemeChar (h c (List.mem_of_mem_getLast? hc))).1

theorem tidy_append {x y : List Char} (hx : Tidy x) (hne : x ≠ [])
    (hy : List.Chain' sepOK y) (hlast : ∀ c ∈ y.getLast?, c ≠ ' ')
    (hj : ∀ a ∈ x.getLast?, ∀ b ∈ y.head?, sepOK a b) : Tidy (x ++ y) := by
  refine ⟨List.chain'_append.mpr ⟨hx.1, hy, hj⟩, fun c hc => ?_, fun c hc => ?_⟩
  · rw [List.head?_append] at hc
    cases x with
    | nil => exact absurd rfl hne
    | cons a x => exact hx.2.1 c (by simpa using hc)
  · rw [List.getLast?_append] at hc
    cases hy2 : y.getLast? with
    | none =>
      rw [hy2] at hc
      exact hx.2.2 c (by simpa using hc)
    | some b =>
      rw [hy2] at hc
      exact hlast c (by rw [hy2]; simpa using hc)

theorem getLast?_append_right (x : List Char) {y : List Char} (hy : y ≠ []) :
    (x ++ y).getLast? = y.getLast? := by
  rw [List.getLast?_append]
  cases h : y.getLast? with
  | none => exact absurd (List.getLast?_eq_none_iff.mp h) hy
  | some b => rfl

theorem emits_tidy {nt : Nonterminal} {ts : List Token} {xs : List (List Char)}
    (h : Emits nt ts xs) : (∀ t ∈ ts, t.WellFormed) →
      Tidy (joinArgs xs) ∧ (xs ≠ [] → joinArgs xs ≠ []) ∧
      (nt = .argument ∨ nt = .arguments → ∀ c ∈ (joinArgs xs).getLast?, c ≠ '(') := by
  induction h with
  | @expression lp ts xs hlp _ ih =>
    intro hwf
    obtain ⟨h1, h2, _⟩ := ih (fun t ht => hwf t (List.mem_cons_of_mem _ ht))
    exact ⟨h1, h2, fun hnt => by simp at hnt⟩
  | @functionCall f rp as xs hf hrp _ ih =>
    intro hwf
    obtain ⟨hJ, _, _⟩ := ih (fun t ht =>
      hwf t (List.mem_cons_of_mem _ (List.mem_append_left _ ht)))
    obtain ⟨hfne, hfc⟩ := lexeme_of_wellFormed (hwf f (List.mem_cons_self _ _)) (Or.inl hf)
    obtain ⟨hfv, _⟩ := tidy_of_lexeme hfc
    have h1 : Tidy (f.value ++ ['(']) :=
      tidy_append hfv hfne (List.chain'_singleton _) (by simp) (fun a _ b hb => by
        have : b = '(' := by simpa using hb.symm
        subst this
        exact ⟨fun hh => absurd hh.2 (by decide), fun hh => absurd hh.2 (by decide)⟩)
    have h2 : Tidy (f.value ++ ['('] ++ joinArgs xs) :=
      tidy_append h1 (by simp) hJ.1 hJ.2.2 (fun a ha b hb => by
        have : a = '(' := by simpa using ha.symm
        subst this
        exact ⟨fun hh => absurd hh.1 (by decide), fun hh => (hJ.2.1 b hb).1 hh.2⟩)
    exact ⟨h2, fun _ => by simp [joinArgs], fun hnt => by simp at hnt⟩
  | argumentsNil =>
    intro _
    exact ⟨⟨List.chain'_nil, by simp [joinArgs], by simp [joinArgs]⟩, fun h => absurd rfl h,
      by simp [joinArgs]⟩
  | @argumentsCons a as x xs _ _ ih1 ih2 =>
    intro hwf
    obtain ⟨hx, hxne, hxl⟩ := ih1 (fun t ht => hwf t (List.mem_append_left _ ht))
    obtain ⟨hJ, hJne, hJl⟩ := ih2 (fun t ht => hwf t (List.mem_append_right _ ht))
    have hx : Tidy x := hx
    have hxne : x ≠ [] := hxne (List.cons_ne_nil _ _)
    have hxl : ∀ c ∈ x.getLast?, c ≠ '(' := hxl (Or.inl rfl)
    cases xs with
    | nil => exact ⟨hx, fun _ => hxne, fun _ => hxl⟩
    | cons y ys =>
      have hJne := hJne (List.cons_ne_nil _ _)
      have hJl := hJl (Or.inr rfl)
      obtain ⟨b, bs, hb⟩ : ∃ b bs, joinArgs (y :: ys) = b :: bs := by
        cases hq : joinArgs (y :: ys) with
        | nil => exact absurd hq hJne
        | cons b bs => exact ⟨b, bs, rfl⟩
      have hy : List.Chain' sepOK ([',', ' '] ++ joinArgs (y :: ys)) :=
        List.chain'_append.mpr ⟨by
          refine List.chain'_cons.mpr ⟨?_, List.chain'_singleton _⟩
          exact ⟨fun hh => absurd hh.1 (by decide), fun hh => absurd hh.1 (by decide)⟩,
          hJ.1, fun a ha b hb => by
            have : a = ' ' := by simpa using ha.symm
            subst this
            exact ⟨fun hh => (hJ.2.1 b hb).2 hh.2, fun hh => absurd hh.1 (by decide)⟩⟩
      have hlast : ([',', ' '] ++ joinArgs (y :: ys)).getLast? =
          (joinArgs (y :: ys)).getLast? := getLast?_append_right _ hJne
      have h1 : Tidy (x ++ ([',', ' '] ++ joinArgs (y :: ys))) :=
        tidy_append hx hxne hy (by rw [hlast]; exact hJ.2.2) (fun a ha b hb => by
          have : b = ',' := by simpa using hb.symm
          subst this
          exact ⟨fun hh => absurd hh.2 (by decide), fun hh => hxl a ha hh.1⟩)
      have he : joinArgs (x :: y :: ys) = x ++ ([',', ' '] ++ joinArgs (y :: ys)) := by
        rw [joinArgs, List.append_assoc]
      rw [he]
      refine ⟨h1, fun _ => by simp, fun _ c hc => ?_⟩
      rw [← List.append_assoc, getLast?_append_right _ hJne] at hc
      exact hJl c hc
  | @number t ht =>
    intro hwf
    obtain ⟨hne, hc⟩ := lexeme_of_wellFormed (hwf t (List.mem_cons_self _ _))
      (Or.inr (Or.inl ht))
    obtain ⟨h1, h2⟩ := tidy_of_lexeme hc
    exact ⟨h1, fun _ => hne, fun _ => h2⟩
  | @operator t ht =>
    intro hwf
    obtain ⟨hne, hc⟩ := lexeme_of_wellFormed (hwf t (List.mem_cons_self _ _))
      (Or.inr (Or.inr ht))
    obtain ⟨h1, h2⟩ := tidy_of_lexeme hc
    exact ⟨h1, fun _ => hne, fun _ => h2⟩
  | @nested ts s _ ih =>
    intro hwf
    obtain ⟨hs, hsne, _⟩ := ih hwf
    have hs : Tidy s := hs
    have hsne : s ≠ [] := hsne (List.cons_ne_nil _ _)
    show Tidy (['('] ++ s ++ [')']) ∧ _ ∧ (_ → ∀ c ∈ (['('] ++ s ++ [')']).getLast?, c ≠ '(')
    obtain ⟨b, bs, hb⟩ : ∃ b bs, s = b :: bs := by
      cases s with
      | nil => exact absurd rfl hsne
      | cons b bs => exact ⟨b, bs, rfl⟩
    have hy : List.Chain' sepOK (s ++ [')']) :=
      List.chain'_append.mpr ⟨hs.1, List.chain'_singleton _, fun a ha b hb => by
        have : b = ')' := by simpa using hb.symm
        subst this
        exact ⟨fun hh => hs.2.2 a ha hh.1, fun hh => absurd hh.2 (by decide)⟩⟩
    have h0 : Tidy ['('] := ⟨List.chain'_singleton _, by simp, by simp⟩
    have h1 : Tidy (['('] ++ (s ++ [')'])) :=
      tidy_append h0 (by simp) hy (by simp) (fun a ha c hc => by
        have ha : a = '(' := by simpa using ha.symm
        subst ha
        rw [hb] at hc
        have hc : c = b := by simpa using hc.symm
        subst hc
        refine ⟨fun hh => absurd hh.1 (by decide), fun hh => ?_⟩
        exact (hs.2.1 c (by rw [hb]; simp)).1 hh.2)
    rw [List.append_assoc]
    exact ⟨h1, fun _ => by simp [joinArgs], fun _ c hc => by
      rw [← List.append_assoc, List.getLast?_concat] at hc
      have : c = ')' := by simpa using hc.symm
      subst this
      decide⟩

theorem tidy_no_dangling {out : List Char} (h : Tidy out) :
    ¬ [',', ' '] <:+ out ∧ ¬ [',', ' ', ')'] <:+: out ∧ ¬ ['(', ',', ' '] <:+: out := by
  refine ⟨fun hs => ?_, fun hi => ?_, fun hi => ?_⟩
  · obtain ⟨pre, rfl⟩ := hs
    exact h.2.2 ' ' (by rw [getLast?_append_right _ (by simp)]; rfl) rfl
  · have hc := List.Chain'.infix h.1 hi
    rw [List.chain'_cons, List.chain'_cons] at hc
    exact hc.2.1.1 ⟨rfl, rfl⟩
  · have hc := List.Chain'.infix h.1 hi
    rw [List.chain'_cons] at hc
    exact hc.1.2 ⟨rfl, rfl⟩

/-- A well-formed token other than `INVALID` has neither a comma nor a space in its
lexeme. -/
theorem no_separator_of_wellFormed {t : Token} (h : t.WellFormed) (hty : t.type ≠ .INVALID) :
    ',' ∉ t.value ∧ ' ' ∉ t.value := by
  rcases hk : t.type with _ | _ | _ | _ | _ | _
  all_goals first
    | exact absurd hk hty
    | (have hw := h
       unfold Token.WellFormed at hw
       rw [hk] at hw
       simp only at hw
       rw [hw]
       decide)
    | (obtain ⟨_, hall⟩ := lexeme_of_wellFormed h (by simp [hk])
       exact ⟨fun hc => (ne_of_isLexemeChar (hall _ hc)).2.2.1 rfl,
         fun hc => (ne_of_isLexemeChar (hall _ hc)).2.2.2 rfl⟩)

/-- The output of a successful conversion is the text emitted for the tokens of the input,
and it has no misplaced separator. -/
theorem convert_emits_tidy {input out : List Char}
    (h : convertLispToC input = some (.ok out)) :
    Tidy out ∧ ∃ tokens, lexer input = some tokens ∧
      (tokens = [] ∧ out = [] ∨ Emits .expression tokens [out]) ∧
      ∀ t ∈ tokens, ',' ∉ t.value ∧ ' ' ∉ t.value := by
  obtain ⟨tokens, hl⟩ := lexer_total input
  have hp : parse tokens = some (.ok out) := by
    rw [convertLispToC, hl] at h
    exact h
  by_cases hne : tokens = []
  · subst hne
    rw [parse_nil] at hp
    simp only [Option.some.injEq, Except.ok.injEq] at hp
    subst hp
    exact ⟨⟨List.chain'_nil, by simp, by simp⟩, [], hl, Or.inl ⟨rfl, rfl⟩, by simp⟩
  · have he := emits_of_parse_ok hne hp
    have hd := derives_of_parse_ok hne hp
    have hwf := lexer_wellFormed hl
    refine ⟨(emits_tidy he hwf).1, tokens, hl, Or.inr he, fun t ht => ?_⟩
    exact no_separator_of_wellFormed (hwf t ht) (fun hc =>
      derives_no_invalid hd (by rw [← hc]; exact List.mem_map_of_mem _ ht))

/-! # The claims -/

/-- C1 (defect of the code): on the single-level calls `(add 1 2)` and `(add -1 2)` the
conversion succeeds, but the returned text is `add(1, 2` and `add(-1, 2`: the arguments are
joined with `", "` as claimed, and the closing `)` of the call is never emitted, so the
claimed outputs `add(1, 2)` and `add(-1, 2)` are not returned. -/
theorem flat_call_output_lacks_closing_paren :
    convertLispToC "(add 1 2)".toList = some (.ok "add(1, 2".toList) ∧
    convertLispToC "(add 1 2)".toList ≠ some (.ok "add(1, 2)".toList) ∧
    convertLispToC "(add -1 2)".toList = some (.ok "add(-1, 2".toList) ∧
    convertLispToC "(add -1 2)".toList ≠ some (.ok "add(-1, 2)".toList) := by
  decide

/-- C2 (defect of the code): on `(add 1 (mul 2 3))` the conversion succeeds, but the
returned text is `add(1, (mul(2, 3)`: the nested call is wrapped in the parentheses that
`parseArguments` adds, and neither call emits its own closing `)`, so the claimed output
`add(1, (mul(2, 3)))` is not returned. -/
theorem nested_call_output_lacks_closing_parens :
    convertLispToC "(add 1 (mul 2 3))".toList = some (.ok "add(1, (mul(2, 3)".toList) ∧
    convertLispToC "(add 1 (mul 2 3))".toList ≠ some (.ok "add(1, (mul(2, 3)))".toList) := by
  decide

/-- C3: `parse` fails with `InvalidExpressionStart` exactly when the token sequence is
non-empty and its first token is not an `LPAREN`; the error cannot come from a nested
position, since neither `parseFunctionCall` nor the loop of `parseArguments` ever returns it,
at any cursor; and converting `add 1 2` fails with `InvalidExpressionStart`. -/
theorem invalid_expression_start_iff :
    (∀ tokens : List Token, parse tokens = some (.error .InvalidExpressionStart) ↔
      ∃ t ts, tokens = t :: ts ∧ t.type ≠ .LPAREN) ∧
    (∀ (n : Nat) (tokens : List Token) (current : Nat),
      parseFunctionCall n tokens current ≠ some (.error .InvalidExpressionStart)) ∧
    (∀ (n : Nat) (tokens : List Token) (current : Nat) (args : List Char),
      parseArguments n tokens current args ≠ some (.error .InvalidExpressionStart)) ∧
    convertLispToC "add 1 2".toList = some (.error .InvalidExpressionStart) := by
  refine ⟨fun tokens => ⟨fun h => ?_, ?_⟩, fun n => (parse_no_invalid_start n).2.1,
    fun n => (parse_no_invalid_start n).2.2, by decide⟩
  · cases tokens with
    | nil => simp [parse_nil] at h
    | cons t ts =>
      refine ⟨t, ts, rfl, fun ht => ?_⟩
      have hE := (parse_no_invalid_start (parseFuel (t :: ts))).1 (t :: ts) 0
        (by rw [peek_cons_zero]; exact ht)
      rw [parse_cons] at h
      rcases hr : parseExpression (parseFuel (t :: ts)) (t :: ts) 0 with _ | ⟨e | ⟨s, c⟩⟩
      · rw [hr] at h; simp at h
      · rw [hr] at h
        simp only [Option.some.injEq, Except.error.injEq] at h
        rw [h] at hr
        exact hE hr
      · rw [hr] at h
        dsimp only at h
        split at h <;> simp at h
  · rintro ⟨t, ts, rfl, ht⟩
    refine parse_of_error (n := 1) (List.cons_ne_nil _ _) ?_
    rw [parseExpression_cons, if_neg ht]

/-- C4: when the first token is an `LPAREN` and the second token is absent or is not a
`FUNCTION`, `parse` fails with `ExpectedFunctionName`, whatever tokens follow. -/
theorem expected_function_name_after_lparen (lp : Token) (rest : List Token)
    (hlp : lp.type = .LPAREN) (hrest : ∀ t ∈ rest.head?, t.type ≠ .FUNCTION) :
    parse (lp :: rest) = some (.error .ExpectedFunctionName) := by
  refine parse_of_error (n := 2) (List.cons_ne_nil _ _) ?_
  rw [parseExpression_cons, if_pos hlp]
  cases rest with
  | nil => rfl
  | cons t ts =>
    rw [parseFunctionCall_cons, if_neg (hrest t rfl)]
    rfl

/-- C4 on the input `()`: its tokens are an `LPAREN` and an `RPAREN`, and `parse` fails
with `ExpectedFunctionName`. -/
theorem expected_function_name_after_lparen_witness :
    lexer "()".toList = some [⟨.LPAREN, ['(']⟩, ⟨.RPAREN, [')']⟩] ∧
    parse [⟨.LPAREN, ['(']⟩, ⟨.RPAREN, [')']⟩] = some (.error .ExpectedFunctionName) :=
  ⟨by decide, expected_function_name_after_lparen ⟨.LPAREN, ['(']⟩ [⟨.RPAREN, [')']⟩] rfl
    (by decide)⟩

/-- C5: tokens appended to a non-empty token sequence that `parse` accepts make `parse` fail
with `UnexpectedTrailingToken`. -/
theorem trailing_tokens_rejected (ts extra : List Token) (s : List Char) (hts : ts ≠ [])
    (hok : parse ts = some (.ok s)) (hextra : extra ≠ []) :
    parse (ts ++ extra) = some (.error .UnexpectedTrailingToken) := by
  obtain ⟨n, s1, hn⟩ := derives_accepts (derives_of_parse_ok hts hok) ts extra rfl
  have hlen : ts.length < (ts ++ extra).length := by
    rw [List.length_append]
    have := List.length_pos.mpr hextra
    omega
  rw [parse_of_ok (by simpa using fun h _ => hts h) (hn n (Nat.le_refl n)), if_pos hlen]

/-- C5 on the input `(add 1 2) extra`: its tokens are those of `(add 1 2)`, which `parse`
accepts, followed by one more token, and `parse` fails with `UnexpectedTrailingToken`. -/
theorem trailing_tokens_rejected_witness :
    lexer "(add 1 2) extra".toList =
      some ([⟨.LPAREN, ['(']⟩, ⟨.FUNCTION, "add".toList⟩, ⟨.NUMBER, ['1']⟩, ⟨.NUMBER, ['2']⟩,
        ⟨.RPAREN, [')']⟩] ++ [⟨.FUNCTION, "extra".toList⟩]) ∧
    parse ([⟨.LPAREN, ['(']⟩, ⟨.FUNCTION, "add".toList⟩, ⟨.NUMBER, ['1']⟩, ⟨.NUMBER, ['2']⟩,
        ⟨.RPAREN, [')']⟩] ++ [⟨.FUNCTION, "extra".toList⟩]) =
      some (.error .UnexpectedTrailingToken) :=
  ⟨by decide, trailing_tokens_rejected _ _ "add(1, 2".toList (by decide) (by decide)
    (by decide)⟩

/-- C6: in a call whose arguments so far are `NUMBER`/`OPERATOR` tokens, a `FUNCTION` or
`INVALID` token in argument position makes `parse` fail with `UnexpectedTokenInArguments`,
whatever tokens follow. -/
theorem function_or_invalid_argument_rejected (lp f : Token) (as : List Token) (t : Token)
    (rest : List Token) (hlp : lp.type = .LPAREN) (hf : f.type = .FUNCTION)
    (has : ∀ a ∈ as, a.type = .NUMBER ∨ a.type = .OPERATOR)
    (ht : t.type = .FUNCTION ∨ t.type = .INVALID) :
    parse ([lp, f] ++ as ++ [t] ++ rest) = some (.error .UnexpectedTokenInArguments) := by
  refine parse_of_error (n := as.length + 3) (by simp) ?_
  have h := parseArguments_simple_then_stop as has (t :: rest) (fun u hu => by
    simp only [List.head?_cons, Option.mem_def, Option.some.injEq] at hu
    rw [← hu]; exact ht) (as.length + 1) (Nat.lt_succ_self _) []
  simp only [List.cons_append, List.nil_append, List.append_assoc]
  rw [parseExpression_cons, if_pos hlp, parseFunctionCall_cons, if_pos hf, h]
  rfl

/-- C6 on the input `(add x 1)`: the bare identifier `x` is a `FUNCTION` token in argument
position, and `parse` fails with `UnexpectedTokenInArguments`. -/
theorem function_or_invalid_argument_rejected_witness :
    lexer "(add x 1)".toList =
      some ([⟨.LPAREN, ['(']⟩, ⟨.FUNCTION, "add".toList⟩] ++ [] ++ [⟨.FUNCTION, ['x']⟩] ++
        [⟨.NUMBER, ['1']⟩, ⟨.RPAREN, [')']⟩]) ∧
    parse ([⟨.LPAREN, ['(']⟩, ⟨.FUNCTION, "add".toList⟩] ++ [] ++ [⟨.FUNCTION, ['x']⟩] ++
        [⟨.NUMBER, ['1']⟩, ⟨.RPAREN, [')']⟩]) =
      some (.error .UnexpectedTokenInArguments) :=
  ⟨by decide, function_or_invalid_argument_rejected _ _ [] _ _ rfl rfl (by simp)
    (Or.inl rfl)⟩

/-- C7: on an input that is empty or made of whitespace characters only, the lexer returns
no token and the conversion succeeds with the empty string. -/
theorem whitespace_only_input_converts_to_empty (input : List Char)
    (hws : ∀ c ∈ input, isspace c = true) :
    lexer input = some [] ∧ convertLispToC input = some (.ok []) := by
  have h : lexer input = some [] := lexerLoop_whitespace _ input (Nat.lt_succ_self _) hws
  exact ⟨h, by rw [convertLispToC, h]; rfl⟩

/-- C7 on the empty line and on a line of a space, a tab and a space. -/
theorem whitespace_only_input_converts_to_empty_witness :
    (lexer [] = some [] ∧ convertLispToC [] = some (.ok [])) ∧
    (lexer [' ', '\t', ' '] = some [] ∧ convertLispToC [' ', '\t', ' '] = some (.ok [])) :=
  ⟨whitespace_only_input_converts_to_empty [] (by simp),
    whitespace_only_input_converts_to_empty [' ', '\t', ' '] (by decide)⟩

/-- C8: `parse` never succeeds on a token sequence that contains an `INVALID` token: it
fails with one of the four errors, and so does the conversion of every input whose lexer
output is that token sequence. -/
theorem invalid_token_rejected (tokens : List Token)
    (hinv : ∃ t ∈ tokens, t.type = .INVALID) :
    (∃ e, parse tokens = some (.error e)) ∧
    ∀ input, lexer input = some tokens → ∃ e, convertLispToC input = some (.error e) := by
  have hparse : ∃ e, parse tokens = some (.error e) := by
    rcases hr : parse tokens with _ | ⟨e | s⟩
    · exact absurd hr (parse_ne_none tokens)
    · exact ⟨e, rfl⟩
    · exfalso
      obtain ⟨t, ht, hty⟩ := hinv
      have hne : tokens ≠ [] := List.ne_nil_of_mem ht
      refine derives_no_invalid (derives_of_parse_ok hne hr) ?_
      rw [← hty]
      exact List.mem_map_of_mem _ ht
  refine ⟨hparse, fun input hlex => ?_⟩
  rw [convertLispToC, hlex]
  exact hparse

/-- C8 on the input `(add $ 1)`: `$` becomes an `INVALID` token and the conversion fails. -/
theorem invalid_token_rejected_witness :
    lexer "(add $ 1)".toList =
      some [⟨.LPAREN, ['(']⟩, ⟨.FUNCTION, "add".toList⟩, ⟨.INVALID, ['$']⟩, ⟨.NUMBER, ['1']⟩,
        ⟨.RPAREN, [')']⟩] ∧
    ((∃ e, parse [⟨.LPAREN, ['(']⟩, ⟨.FUNCTION, "add".toList⟩, ⟨.INVALID, ['$']⟩,
        ⟨.NUMBER, ['1']⟩, ⟨.RPAREN, [')']⟩] = some (.error e)) ∧
      ∀ input, lexer input = some [⟨.LPAREN, ['(']⟩, ⟨.FUNCTION, "add".toList⟩,
        ⟨.INVALID, ['$']⟩, ⟨.NUMBER, ['1']⟩, ⟨.RPAREN, [')']⟩] →
        ∃ e, convertLispToC input = some (.error e)) :=
  ⟨by decide, invalid_token_rejected _ ⟨⟨.INVALID, ['$']⟩, by simp, rfl⟩⟩

/-- C9 as stated fails: the tokens of `(add 1 (mul 2 3))` are accepted by `parse`, yet their
kinds are not derivable from `expression` in the grammar as the specification writes it,
where a nested argument needs two opening and two closing parentheses. -/
theorem spec_grammar_rejects_accepted_tokens :
    ¬ ((∃ s, parse [⟨.LPAREN, ['(']⟩, ⟨.FUNCTION, "add".toList⟩, ⟨.NUMBER, ['1']⟩,
          ⟨.LPAREN, ['(']⟩, ⟨.FUNCTION, "mul".toList⟩, ⟨.NUMBER, ['2']⟩, ⟨.NUMBER, ['3']⟩,
          ⟨.RPAREN, [')']⟩, ⟨.RPAREN, [')']⟩] = some (.ok s)) ↔
      SpecDerives .expression
        (([⟨.LPAREN, ['(']⟩, ⟨.FUNCTION, "add".toList⟩, ⟨.NUMBER, ['1']⟩,
          ⟨.LPAREN, ['(']⟩, ⟨.FUNCTION, "mul".toList⟩, ⟨.NUMBER, ['2']⟩, ⟨.NUMBER, ['3']⟩,
          ⟨.RPAREN, [')']⟩, ⟨.RPAREN, [')']⟩] : List Token).map Token.type)) := by
  intro h
  have hd := h.mp ⟨"add(1, (mul(2, 3)".toList, by decide⟩
  have hc := specDerives_count hd
  revert hc
  decide

/-- C9, amended: on a non-empty token sequence, `parse` succeeds exactly when the sequence of
token kinds is derivable from `expression` in the grammar
`expression := '(' functionCall`, `functionCall := FUNCTION argument* ')'`,
`argument := NUMBER | OPERATOR | expression`; and `parse` always ends, with a string or with
one of the four errors. -/
theorem parse_succeeds_iff_derives (tokens : List Token) (hne : tokens ≠ []) :
    ((∃ s, parse tokens = some (.ok s)) ↔ Derives .expression (tokens.map Token.type)) ∧
    ((∃ s, parse tokens = some (.ok s)) ∨ (∃ e, parse tokens = some (.error e))) := by
  refine ⟨⟨fun ⟨s, hs⟩ => derives_of_parse_ok hne hs, parse_ok_of_derives⟩, ?_⟩
  rcases hr : parse tokens with _ | ⟨e | s⟩
  · exact absurd hr (parse_ne_none tokens)
  · exact Or.inr ⟨e, rfl⟩
  · exact Or.inl ⟨s, rfl⟩

/-- C9, amended, on the tokens of `(add 1 (mul 2 3))`. -/
theorem parse_succeeds_iff_derives_witness :
    ([⟨.LPAREN, ['(']⟩, ⟨.FUNCTION, "add".toList⟩, ⟨.NUMBER, ['1']⟩,
        ⟨.LPAREN, ['(']⟩, ⟨.FUNCTION, "mul".toList⟩, ⟨.NUMBER, ['2']⟩, ⟨.NUMBER, ['3']⟩,
        ⟨.RPAREN, [')']⟩, ⟨.RPAREN, [')']⟩] : List Token) ≠ [] ∧
    (((∃ s, parse [⟨.LPAREN, ['(']⟩, ⟨.FUNCTION, "add".toList⟩, ⟨.NUMBER, ['1']⟩,
          ⟨.LPAREN, ['(']⟩, ⟨.FUNCTION, "mul".toList⟩, ⟨.NUMBER, ['2']⟩, ⟨.NUMBER, ['3']⟩,
          ⟨.RPAREN, [')']⟩, ⟨.RPAREN, [')']⟩] = some (.ok s)) ↔
        Derives .expression
          (([⟨.LPAREN, ['(']⟩, ⟨.FUNCTION, "add".toList⟩, ⟨.NUMBER, ['1']⟩,
            ⟨.LPAREN, ['(']⟩, ⟨.FUNCTION, "mul".toList⟩, ⟨.NUMBER, ['2']⟩, ⟨.NUMBER, ['3']⟩,
            ⟨.RPAREN, [')']⟩, ⟨.RPAREN, [')']⟩] : List Token).map Token.type)) ∧
      ((∃ s, parse [⟨.LPAREN, ['(']⟩, ⟨.FUNCTION, "add".toList⟩, ⟨.NUMBER, ['1']⟩,
          ⟨.LPAREN, ['(']⟩, ⟨.FUNCTION, "mul".toList⟩, ⟨.NUMBER, ['2']⟩, ⟨.NUMBER, ['3']⟩,
          ⟨.RPAREN, [')']⟩, ⟨.RPAREN, [')']⟩] = some (.ok s)) ∨
        (∃ e, parse [⟨.LPAREN, ['(']⟩, ⟨.FUNCTION, "add".toList⟩, ⟨.NUMBER, ['1']⟩,
          ⟨.LPAREN, ['(']⟩, ⟨.FUNCTION, "mul".toList⟩, ⟨.NUMBER, ['2']⟩, ⟨.NUMBER, ['3']⟩,
          ⟨.RPAREN, [')']⟩, ⟨.RPAREN, [')']⟩] = some (.error e)))) :=
  ⟨by decide, parse_succeeds_iff_derives _ (by decide)⟩

/-- C10: the lexer returns a token sequence on every input, and the lexemes of the tokens,
concatenated in order, are the input with its whitespace characters removed. -/
theorem lexer_lexemes_are_input_without_whitespace (input : List Char) :
    ∃ tokens, lexer input = some tokens ∧
      (tokens.map Token.value).flatten = input.filter (fun c => !isspace c) :=
  lexerLoop_lexemes _ input (Nat.lt_succ_self _)

/-- C11: the lexer never produces an `OPERATOR` token with lexeme `-`: on every input it
returns tokens whose `OPERATOR` lexemes are `+`, `*` or `/`; a lexeme that contains a `-` is
a `NUMBER` lexeme with the `-` as its first character and nowhere else, and the input has as
many `-` as there are `NUMBER` tokens starting with `-`; and `-` alone lexes to the single
token `NUMBER` `-`. -/
theorem minus_is_lexed_as_number :
    (∀ input : List Char, ∃ tokens, lexer input = some tokens ∧
      (∀ t ∈ tokens, t.type = .OPERATOR →
        t.value = ['+'] ∨ t.value = ['*'] ∨ t.value = ['/']) ∧
      (∀ t ∈ tokens, '-' ∈ t.value →
        t.type = .NUMBER ∧ ∃ rest, t.value = '-' :: rest ∧ '-' ∉ rest) ∧
      input.count '-' =
        tokens.countP (fun t => decide (t.type = .NUMBER ∧ t.value.head? = some '-'))) ∧
    lexer ['-'] = some [⟨.NUMBER, ['-']⟩] := by
  refine ⟨fun input => ?_, by decide⟩
  obtain ⟨tokens, h, hj⟩ := lexerLoop_lexemes _ input (Nat.lt_succ_self _)
  have hwf := lexer_wellFormed h
  refine ⟨tokens, h, fun t ht => operator_of_wellFormed (hwf t ht),
    fun t ht => minus_mem_of_wellFormed (hwf t ht), ?_⟩
  rw [← count_minus_of_wellFormed tokens hwf, hj, count_minus_filter]

/-- C12: every token that the lexer returns is well-formed for its kind: its lexeme is not
empty; an `LPAREN` is `(` and an `RPAREN` is `)`; a `NUMBER` starts with a digit or `-` and
goes on with digits and dots; a `FUNCTION` starts with a letter and goes on with letters and
digits; an `INVALID` is one character, which is not whitespace, a parenthesis, a digit, a
letter, nor one of `-`, `+`, `*`, `/`. -/
theorem lexer_tokens_are_well_formed (input : List Char) :
    ∃ tokens, lexer input = some tokens ∧ ∀ t ∈ tokens,
      t.value ≠ [] ∧
      (t.type = .LPAREN → t.value = ['(']) ∧
      (t.type = .RPAREN → t.value = [')']) ∧
      (t.type = .NUMBER → ∃ c rest, t.value = c :: rest ∧ (isdigit c = true ∨ c = '-') ∧
        ∀ x ∈ rest, isdigit x = true ∨ x = '.') ∧
      (t.type = .FUNCTION → ∃ c rest, t.value = c :: rest ∧ isalpha c = true ∧
        ∀ x ∈ rest, isalpha x = true ∨ isdigit x = true) ∧
      (t.type = .INVALID → ∃ c, t.value = [c] ∧ isspace c = false ∧ c ≠ '(' ∧ c ≠ ')' ∧
        isdigit c = false ∧ isalpha c = false ∧ c ≠ '-' ∧ c ≠ '+' ∧ c ≠ '*' ∧ c ≠ '/') := by
  obtain ⟨tokens, h⟩ := lexer_total input
  refine ⟨tokens, h, fun t ht => ?_⟩
  have hwf := lexer_wellFormed h t ht
  unfold Token.WellFormed at hwf
  split at hwf <;> rename_i hty
  · obtain ⟨c, rest, hv, hc, hrest⟩ := hwf
    refine ⟨by simp [hv], by simp [hty], by simp [hty], by simp [hty],
      fun _ => ⟨c, rest, hv, hc, fun x hx => ?_⟩, by simp [hty]⟩
    simpa [isalnum] using hrest x hx
  · obtain ⟨c, rest, hv, hc, hrest⟩ := hwf
    refine ⟨by simp [hv], by simp [hty], by simp [hty],
      fun _ => ⟨c, rest, hv, hc, fun x hx => ?_⟩, by simp [hty], by simp [hty]⟩
    simpa [numberCont] using hrest x hx
  · exact ⟨by rcases hwf with h | h | h <;> simp [h], by simp [hty], by simp [hty],
      by simp [hty], by simp [hty], by simp [hty]⟩
  · exact ⟨by simp [hwf], fun _ => hwf, by simp [hty], by simp [hty], by simp [hty],
      by simp [hty]⟩
  · exact ⟨by simp [hwf], by simp [hty], fun _ => hwf, by simp [hty], by simp [hty],
      by simp [hty]⟩
  · obtain ⟨c, hv, hrest⟩ := hwf
    exact ⟨by simp [hv], by simp [hty], by simp [hty], by simp [hty], by simp [hty],
      fun _ => ⟨c, hv, hrest⟩⟩

/-- C13: a non-empty string whose first character is a digit or `-` and whose other
characters are digits or dots lexes to the single token `NUMBER` with the whole string as
its lexeme. -/
theorem number_string_is_one_token (c : Char) (rest : List Char)
    (hc : isdigit c = true ∨ c = '-') (hrest : ∀ x ∈ rest, isdigit x = true ∨ x = '.') :
    lexer (c :: rest) = some [⟨.NUMBER, c :: rest⟩] :=
  lexer_number hc (fun x hx => by simpa [numberCont] using hrest x hx)

/-- C13 on `1.2.3` and on `-1`. -/
theorem number_string_is_one_token_witness :
    lexer "1.2.3".toList = some [⟨.NUMBER, "1.2.3".toList⟩] ∧
    lexer "-1".toList = some [⟨.NUMBER, "-1".toList⟩] :=
  ⟨number_string_is_one_token '1' ".2.3".toList (by decide) (by decide),
    number_string_is_one_token '-' "1".toList (by decide) (by decide)⟩

/-- C19: a whitespace character is a token boundary: the tokens of `s1 ++ [w] ++ s2` are
the tokens of `s1` followed by the tokens of `s2`; in particular a leading or a trailing
whitespace character does not change the tokens. -/
theorem whitespace_is_a_token_boundary (s1 s2 : List Char) (w : Char)
    (hw : isspace w = true) :
    (∃ t1 t2, lexer s1 = some t1 ∧ lexer s2 = some t2 ∧
      lexer (s1 ++ [w] ++ s2) = some (t1 ++ t2)) ∧
    lexer ([w] ++ s2) = lexer s2 ∧ lexer (s1 ++ [w]) = lexer s1 := by
  obtain ⟨t1, h1⟩ := lexer_total s1
  obtain ⟨t2, h2⟩ := lexer_total s2
  refine ⟨⟨t1, t2, h1, h2, ?_⟩, ?_, ?_⟩
  · rw [List.append_assoc, List.singleton_append,
      lexer_append_whitespace hw s2 s1.length s1 (Nat.le_refl _), h1, h2]
    rfl
  · rw [List.singleton_append, lexer_cons, if_pos hw]
  · rw [lexer_append_whitespace hw [] s1.length s1 (Nat.le_refl _), h1, lexer_nil]
    simp

/-- C19 on `(add` and `1)` separated by a space. -/
theorem whitespace_is_a_token_boundary_witness :
    (∃ t1 t2, lexer "(add".toList = some t1 ∧ lexer "1)".toList = some t2 ∧
      lexer ("(add".toList ++ [' '] ++ "1)".toList) = some (t1 ++ t2)) ∧
    lexer ([' '] ++ "1)".toList) = lexer "1)".toList ∧
    lexer ("(add".toList ++ [' ']) = lexer "(add".toList :=
  whitespace_is_a_token_boundary "(add".toList "1)".toList ' ' (by decide)

/-- C16: a call that is not closed, with `NUMBER`/`OPERATOR` arguments only, makes `parse`
fail with `UnexpectedTokenInArguments`: at the end of the tokens `peek` returns the `INVALID`
token with the empty lexeme, which the loop of `parseArguments` rejects. -/
theorem unclosed_call_rejected (lp f : Token) (as : List Token) (hlp : lp.type = .LPAREN)
    (hf : f.type = .FUNCTION) (has : ∀ a ∈ as, a.type = .NUMBER ∨ a.type = .OPERATOR) :
    parse ([lp, f] ++ as) = some (.error .UnexpectedTokenInArguments) ∧
    peek ([lp, f] ++ as) ([lp, f] ++ as).length = ⟨.INVALID, []⟩ := by
  refine ⟨parse_of_error (n := as.length + 3) (by simp) ?_, peek_of_ge (Nat.le_refl _)⟩
  have h := parseArguments_simple_then_stop as has [] (fun u hu => by simp at hu)
    (as.length + 1) (Nat.lt_succ_self _) []
  rw [List.append_nil] at h
  simp only [List.cons_append, List.nil_append]
  rw [parseExpression_cons, if_pos hlp, parseFunctionCall_cons, if_pos hf, h]
  rfl

/-- C16 on the tokens of `(add 1 2`. -/
theorem unclosed_call_rejected_witness :
    lexer "(add 1 2".toList =
      some ([⟨.LPAREN, ['(']⟩, ⟨.FUNCTION, "add".toList⟩] ++
        [⟨.NUMBER, ['1']⟩, ⟨.NUMBER, ['2']⟩]) ∧
    (parse ([⟨.LPAREN, ['(']⟩, ⟨.FUNCTION, "add".toList⟩] ++
        [⟨.NUMBER, ['1']⟩, ⟨.NUMBER, ['2']⟩]) = some (.error .UnexpectedTokenInArguments) ∧
      peek ([⟨.LPAREN, ['(']⟩, ⟨.FUNCTION, "add".toList⟩] ++
        [⟨.NUMBER, ['1']⟩, ⟨.NUMBER, ['2']⟩])
        ([⟨.LPAREN, ['(']⟩, ⟨.FUNCTION, "add".toList⟩] ++
          [⟨.NUMBER, ['1']⟩, ⟨.NUMBER, ['2']⟩] : List Token).length = ⟨.INVALID, []⟩) :=
  ⟨by decide, unclosed_call_rejected _ _ _ rfl rfl (by decide)⟩

/-- C17: on a non-empty token sequence, `parse` succeeds exactly when the sequence is one
complete s-expression: an `LPAREN`, a `FUNCTION` token, arguments and an `RPAREN`, each
argument being a `NUMBER` token, an `OPERATOR` token or a complete s-expression, which
starts with its own single `LPAREN`. -/
theorem parse_succeeds_iff_complete_s_expression (tokens : List Token) (hne : tokens ≠ []) :
    (∃ s, parse tokens = some (.ok s)) ↔ IsPart .sExpression tokens :=
  ⟨fun ⟨_, hs⟩ => partOf_of_derives (derives_of_parse_ok hne hs) tokens rfl,
    fun h => parse_ok_of_derives (derives_of_isPart h)⟩

/-- C17 on the tokens of `(add 1 (mul 2 3))`. -/
theorem parse_succeeds_iff_complete_s_expression_witness :
    ([⟨.LPAREN, ['(']⟩, ⟨.FUNCTION, "add".toList⟩, ⟨.NUMBER, ['1']⟩,
        ⟨.LPAREN, ['(']⟩, ⟨.FUNCTION, "mul".toList⟩, ⟨.NUMBER, ['2']⟩, ⟨.NUMBER, ['3']⟩,
        ⟨.RPAREN, [')']⟩, ⟨.RPAREN, [')']⟩] : List Token) ≠ [] ∧
    ((∃ s, parse [⟨.LPAREN, ['(']⟩, ⟨.FUNCTION, "add".toList⟩, ⟨.NUMBER, ['1']⟩,
        ⟨.LPAREN, ['(']⟩, ⟨.FUNCTION, "mul".toList⟩, ⟨.NUMBER, ['2']⟩, ⟨.NUMBER, ['3']⟩,
        ⟨.RPAREN, [')']⟩, ⟨.RPAREN, [')']⟩] = some (.ok s)) ↔
      IsPart .sExpression [⟨.LPAREN, ['(']⟩, ⟨.FUNCTION, "add".toList⟩, ⟨.NUMBER, ['1']⟩,
        ⟨.LPAREN, ['(']⟩, ⟨.FUNCTION, "mul".toList⟩, ⟨.NUMBER, ['2']⟩, ⟨.NUMBER, ['3']⟩,
        ⟨.RPAREN, [')']⟩, ⟨.RPAREN, [')']⟩]) :=
  ⟨by decide, parse_succeeds_iff_complete_s_expression _ (by decide)⟩

/-- C14: the output of a successful conversion has no dangling separator: it does not end
with `", "`, and `", )"` and `"(, "` do not occur in it. The output is the text emitted for
the tokens of the input, in which `", "` stands between two neighbouring arguments of one
call and nowhere else, the lexemes having neither a comma nor a space. -/
theorem no_dangling_separator (input out : List Char)
    (h : convertLispToC input = some (.ok out)) :
    ¬ [',', ' '] <:+ out ∧ ¬ [',', ' ', ')'] <:+: out ∧ ¬ ['(', ',', ' '] <:+: out ∧
    ∃ tokens, lexer input = some tokens ∧
      (tokens = [] ∧ out = [] ∨ Emits .expression tokens [out]) ∧
      ∀ t ∈ tokens, ',' ∉ t.value ∧ ' ' ∉ t.value := by
  obtain ⟨ht, hrest⟩ := convert_emits_tidy h
  obtain ⟨h1, h2, h3⟩ := tidy_no_dangling ht
  exact ⟨h1, h2, h3, hrest⟩

/-- C14 on the input `(add 1 (mul 2 3))`, whose conversion returns `add(1, (mul(2, 3)`. -/
theorem no_dangling_separator_witness :
    convertLispToC "(add 1 (mul 2 3))".toList = some (.ok "add(1, (mul(2, 3)".toList) ∧
    (¬ [',', ' '] <:+ "add(1, (mul(2, 3)".toList ∧
      ¬ [',', ' ', ')'] <:+: "add(1, (mul(2, 3)".toList ∧
      ¬ ['(', ',', ' '] <:+: "add(1, (mul(2, 3)".toList ∧
      ∃ tokens, lexer "(add 1 (mul 2 3))".toList = some tokens ∧
        (tokens = [] ∧ "add(1, (mul(2, 3)".toList = [] ∨
          Emits .expression tokens ["add(1, (mul(2, 3)".toList]) ∧
        ∀ t ∈ tokens, ',' ∉ t.value ∧ ' ' ∉ t.value) :=
  ⟨by decide, no_dangling_separator _ _ (by decide)⟩

/-- C18: the output of a successful conversion keeps the text of the names and operands in
the order of the input: the output without its `(`, `)`, `,` and space characters is the
input without its whitespace characters and its parentheses. -/
theorem operand_text_is_preserved (input out : List Char)
    (h : convertLispToC input = some (.ok out)) :
    out.filter (fun c => !(c == '(' || c == ')' || c == ',' || c == ' ')) =
      input.filter (fun c => !isspace c && !(c == '(' || c == ')')) :=
  convert_preserves_operands h

/-- C18 on the input `(add 1 (mul 2 3))`: both sides are `add1mul23`. -/
theorem operand_text_is_preserved_witness :
    convertLispToC "(add 1 (mul 2 3))".toList = some (.ok "add(1, (mul(2, 3)".toList) ∧
    "add(1, (mul(2, 3)".toList.filter (fun c => !(c == '(' || c == ')' || c == ',' || c == ' ')) =
      "(add 1 (mul 2 3))".toList.filter (fun c => !isspace c && !(c == '(' || c == ')')) :=
  ⟨by decide, operand_text_is_preserved _ _ (by decide)⟩

end LispToC
